import Mathlib

/-!
The file `brute_dfs.cc`: largest component of the common-factor graph.

A shallow embedding of `brute_dfs.cc` (the C extension of notebook 7.2.2) and a
verification of its behaviour.

Modelling decisions.

* `int` values are mathematical integers (`Int`).  `std::gcd` on `int` is the gcd of
  the absolute values, which is `Int.gcd`; the value `INT_MIN`, whose absolute value is
  not representable, is outside the model.
* `std::unordered_map<int, T>` is an association list with pairwise distinct keys.  The
  order of the list is the order in which the range-`for` of `dfs` enumerates the map.
  The C++ standard leaves that order unspecified; a fresh key is placed at the end
  here, and the theorems about `dfs` hold for every list, hence for every enumeration.
* `recurse` is recursive without a structural argument, so the embedding carries a
  recursion budget (`fuel`) and returns `none` when it is exhausted.  `dfs` supplies a
  budget which is shown to be sufficient.
-/

namespace BruteDfs

/-! ## `std::unordered_map<int, T>` -/

/-- An `std::unordered_map<int, T>`: entries in enumeration order. -/
abbrev UMap (T : Type) := List (Int × T)

namespace UMap

variable {T : Type}

/-- The keys of the map, in enumeration order. -/
def keys (m : UMap T) : List Int := m.map Prod.fst

/-- The number of entries, `m.size()`. -/
def size (m : UMap T) : Nat := m.length

/-- Lookup, `m.find(k)`: `none` stands for `m.end()`. -/
def find : UMap T → Int → Option T
  | [], _ => none
  | (k', v) :: rest, k => if k' = k then some v else find rest k

/-- The map after `f` has been applied through the reference `m[k]`: when `k` is absent,
`operator[]` first inserts a value-initialised entry for it. -/
def subscript [Inhabited T] : UMap T → Int → (T → T) → UMap T
  | [], k, f => [(k, f default)]
  | (k', v) :: rest, k, f =>
    if k' = k then (k', f v) :: rest else (k', v) :: subscript rest k f

/-- The value that the reference `m[k]` denotes once the key is present. -/
def get [Inhabited T] (m : UMap T) (k : Int) : T := (m.find k).getD default

end UMap

/-! ## The program -/

/-- The adjacency list `std::unordered_map<int, std::vector<int>>`. -/
abbrev AdjList := UMap (List Int)

/-- The visited map `std::unordered_map<int, bool>`. -/
abbrev Visited := UMap Bool

/-- The function `recurse` (lines 6-17).  `visited[node] = 1` writes `true` through the
subscript; `adj_list[node]` is a subscript too, so it inserts an empty vector when
`node` is not a key; the loop then runs over that vector and recurses into every
value that `visited.find` does not find.  Both maps are passed by reference, so the
final maps are the result. -/
def recurse : Nat → Int → AdjList → Visited → Option (AdjList × Visited)
  | 0, _, _, _ => none
  | fuel + 1, node, adj_list, visited =>
    let visited := visited.subscript node (fun _ => true)
    let adj_list := adj_list.subscript node id
    (adj_list.get node).foldlM
      (fun (st : AdjList × Visited) (val : Int) =>
        if st.2.find val = none then recurse fuel val st.1 st.2 else some st)
      (adj_list, visited)

/-- The local state of `dfs` during its loop. -/
structure DfsState where
  adj_list : AdjList
  visited : Visited
  res : Int
  prev : Int

/-- One iteration of the loop of `dfs` (lines 25-31) for the entry with key `key`.
`visited.size() - prev` is an exact difference: the visited map never holds more
entries than there are values, far below the range of `int`. -/
def dfsStep (fuel : Nat) (st : DfsState) (key : Int) : Option DfsState :=
  (if st.visited.find key = none then recurse fuel key st.adj_list st.visited
   else some (st.adj_list, st.visited)).map fun r =>
    let len : Int := (r.2.size : Int) - st.prev
    { adj_list := r.1, visited := r.2, res := max len st.res, prev := (r.2.size : Int) }

/-- Every value that occurs in the map, as a key or in a neighbour vector. -/
def nodeList (adj_list : AdjList) : List Int :=
  adj_list.keys ++ (adj_list.map Prod.snd).flatten

/-- The depth of nested `recurse` calls that `dfs` allows for: one more than the
number of values occurring in the map. -/
def callBudget (adj_list : AdjList) : Nat := (nodeList adj_list).length + 1

/-- The loop of `dfs` with an explicit recursion budget.  The range-`for` enumerates the
entries the map has when the loop starts; a key that `recurse` inserts meanwhile is
visited at that moment, so enumerating it as well would measure a growth of 0. -/
def dfsLoop (fuel : Nat) (adj_list : AdjList) : Option DfsState :=
  adj_list.keys.foldlM (dfsStep fuel)
    { adj_list := adj_list, visited := [], res := 0, prev := 0 }

/-- The function `dfs` (lines 19-35). -/
def dfs (adj_list : AdjList) : Option Int :=
  (dfsLoop (callBudget adj_list) adj_list).map (·.res)

/-- The two `push_back`s of lines 42-43 for the pair `(x, y)`. -/
def addEdge (adj_list : AdjList) (x y : Int) : AdjList :=
  (adj_list.subscript x (· ++ [y])).subscript y (· ++ [x])

/-- The inner loop of `create_graph` (lines 39-45): `x` is `nums[i]` and `later` holds
`nums[i+1], ..., nums[n-1]`. -/
def createRow (adj_list : AdjList) (x : Int) (later : List Int) : AdjList :=
  later.foldl (fun adj y => if Int.gcd x y > 1 then addEdge adj x y else adj) adj_list

/-- The function `create_graph` (lines 37-47): the outer loop takes the positions in
order, the inner loop pairs each with all later positions. -/
def create_graph (adj_list : AdjList) : List Int → AdjList
  | [] => adj_list
  | x :: rest => create_graph (createRow adj_list x rest) rest

/-- The function `_largest_component_size` (lines 49-56): `nums` holds the first
`length` elements of `array`. -/
def _largest_component_size (array : List Int) (length : Nat) : Option Int :=
  let nums := array.take length
  dfs (create_graph [] nums)

/-- The effect of `std::iota(first, last, value)` on a range of `n` elements. -/
def iota : Nat → Int → List Int
  | 0, _ => []
  | n + 1, value => value :: iota n (value + 1)

/-- The function `_largest_component_size_all_integers` (lines 59-66). -/
def _largest_component_size_all_integers (length : Nat) : Option Int :=
  let nums := iota length 1
  dfs (create_graph [] nums)

/-- The exported `largest_component_size` (lines 71-73). -/
def largest_component_size (array : List Int) (length : Nat) : Option Int :=
  _largest_component_size array length

/-- The exported `largest_component_size_all_integers` (lines 75-77). -/
def largest_component_size_all_integers (length : Nat) : Option Int :=
  _largest_component_size_all_integers length

/-! ## The graph-theoretic vocabulary of the specification -/

/-- Two nodes of the graph are joined by an (undirected) edge. -/
def Joined (nodes : Finset Int) (edge : Int → Int → Prop) (a b : Int) : Prop :=
  a ∈ nodes ∧ b ∈ nodes ∧ (edge a b ∨ edge b a)

/-- There is a chain of edges of the graph from `a` to `b` (possibly of length 0). -/
def Connected (nodes : Finset Int) (edge : Int → Int → Prop) : Int → Int → Prop :=
  Relation.ReflTransGen (Joined nodes edge)

/-- The finite set `C` is the connected component of the node `a`. -/
def IsComponentOf (nodes : Finset Int) (edge : Int → Int → Prop) (a : Int)
    (C : Finset Int) : Prop :=
  a ∈ nodes ∧ ∀ x, x ∈ C ↔ Connected nodes edge a x

/-- The number `n` is the number of nodes of the largest connected component of the
graph; it is 0 for the graph without nodes. -/
def IsLargestComponentSize (nodes : Finset Int) (edge : Int → Int → Prop) (n : Nat) :
    Prop :=
  (∀ a C, IsComponentOf nodes edge a C → C.card ≤ n) ∧
  ((nodes = ∅ ∧ n = 0) ∨ ∃ a C, IsComponentOf nodes edge a C ∧ C.card = n)

/-- The edge relation stored in an adjacency list: `b` is in the vector of `a`. -/
def AdjList.Edge (adj_list : AdjList) (a b : Int) : Prop := b ∈ adj_list.get a

/-- The map is symmetric: whenever `b` is in the vector of `a`, `a` is in that of `b`. -/
def AdjList.Symmetric (adj_list : AdjList) : Prop :=
  ∀ a b, adj_list.Edge a b → adj_list.Edge b a

/-- The map is closed: every value in a neighbour vector is itself a key. -/
def AdjList.Closed (adj_list : AdjList) : Prop :=
  ∀ a b, adj_list.Edge a b → b ∈ adj_list.keys

/-- Symmetry, checked entry by entry. -/
def SymmetricEntries (adj_list : AdjList) : Prop :=
  ∀ e ∈ adj_list, ∀ b ∈ e.2, e.1 ∈ adj_list.get b

/-- Closedness, checked entry by entry. -/
def ClosedEntries (adj_list : AdjList) : Prop :=
  ∀ e ∈ adj_list, ∀ b ∈ e.2, b ∈ adj_list.keys

instance (adj_list : AdjList) : Decidable (SymmetricEntries adj_list) := by
  unfold SymmetricEntries; infer_instance

instance (adj_list : AdjList) : Decidable (ClosedEntries adj_list) := by
  unfold ClosedEntries; infer_instance

/-- The distinct values of the input sequence: the nodes of the specified graph. -/
def valueSet (nums : List Int) : Finset Int := nums.toFinset

/-- The edge relation of the specified graph: the two values occur at two different
positions of the sequence and their gcd exceeds 1. -/
def GcdEdge (nums : List Int) (a b : Int) : Prop :=
  ∃ i j : Nat, i ≠ j ∧ nums[i]? = some a ∧ nums[j]? = some b ∧ 1 < Int.gcd a b

instance gcdEdgeDecidable (nums : List Int) (a b : Int) : Decidable (GcdEdge nums a b) :=
  decidable_of_iff
    (∃ i, i < nums.length ∧ ∃ j, j < nums.length ∧
      (i ≠ j ∧ nums[i]? = some a ∧ nums[j]? = some b ∧ 1 < Int.gcd a b))
    ⟨fun ⟨i, _, j, _, h⟩ => ⟨i, j, h⟩,
     fun ⟨i, j, hij, hi, hj, hg⟩ =>
      ⟨i, (List.getElem?_eq_some_iff.1 hi).1, j, (List.getElem?_eq_some_iff.1 hj).1,
        hij, hi, hj, hg⟩⟩

/-- The values that share a factor with the value at some other position: the values
that `create_graph` makes keys of the map. -/
def linkedSet (nums : List Int) : Finset Int :=
  nums.toFinset.filter (fun a => ∃ b ∈ nums, GcdEdge nums a b)

/-- The explicit sequence `[1, 2, ..., n]`. -/
def oneTo (n : Nat) : List Int := (List.range' 1 n).map Int.ofNat

/-- A small symmetric and closed map: the edge 2 - 4 and the key 3 without
neighbours. -/
def sampleMap : AdjList := [(2, [4]), (4, [2]), (3, [])]

/-- A symmetric and closed map on the keys 2, 4 and 6, each joined to the other two. -/
def triangleMap : AdjList := [(2, [4, 6]), (4, [2, 6]), (6, [2, 4])]

/-- The map `triangleMap` with its entries and its neighbour vectors in another order. -/
def triangleMapReordered : AdjList := [(6, [4, 2]), (2, [6, 4]), (4, [6, 2])]

/-- The state in which the loop of `dfs` starts (lines 21-22). -/
def dfsInit (adj_list : AdjList) : DfsState :=
  { adj_list := adj_list, visited := [], res := 0, prev := 0 }

/-- The pairs that the inner loop of `create_graph` links for `x = nums[i]`. -/
def RowEdge (x : Int) (later : List Int) (a b : Int) : Prop :=
  ∃ y ∈ later, 1 < Int.gcd x y ∧ ((a = x ∧ b = y) ∨ (a = y ∧ b = x))

/-- What `recurse` guarantees about the maps `r` it leaves behind, in terms of the
neighbour function `g` of the adjacency list. -/
structure RecPost (g : Int → List Int) (adj : AdjList) (v : Visited) (node : Int)
    (r : AdjList × Visited) : Prop where
  get_eq : ∀ x, r.1.get x = g x
  same : node ∈ adj.keys → (∀ a ∈ adj.keys, ∀ b ∈ g a, b ∈ adj.keys) → r.1 = adj
  nodup : v.keys.Nodup → r.2.keys.Nodup
  mono : ∀ x ∈ v.keys, x ∈ r.2.keys
  mem : node ∈ r.2.keys
  reach : ∀ x ∈ r.2.keys, x ∉ v.keys → Relation.ReflTransGen (fun a b => b ∈ g a) node x
  done : ∀ x ∈ r.2.keys, x ∉ v.keys → ∀ y ∈ g x, y ∈ r.2.keys

/-- What the loop of `recurse` over the values `l` guarantees. -/
structure LoopPost (g : Int → List Int) (adj : AdjList) (v : Visited) (l : List Int)
    (r : AdjList × Visited) : Prop where
  get_eq : ∀ x, r.1.get x = g x
  same : (∀ y ∈ l, y ∈ adj.keys) → (∀ a ∈ adj.keys, ∀ b ∈ g a, b ∈ adj.keys) → r.1 = adj
  nodup : v.keys.Nodup → r.2.keys.Nodup
  mono : ∀ x ∈ v.keys, x ∈ r.2.keys
  all : ∀ y ∈ l, y ∈ r.2.keys
  reach : ∀ x ∈ r.2.keys, x ∉ v.keys →
    ∃ y ∈ l, Relation.ReflTransGen (fun a b => b ∈ g a) y x
  done : ∀ x ∈ r.2.keys, x ∉ v.keys → ∀ y ∈ g x, y ∈ r.2.keys

/-- The invariant of the loop of `dfs` after the keys `done` have been enumerated:
the visited set is the union of the components of those keys and `res` is the size of
the largest of them. -/
structure DfsInv (adj : AdjList) (done : List Int) (st : DfsState) : Prop where
  adj_eq : st.adj_list = adj
  nodup : st.visited.keys.Nodup
  prev_eq : st.prev = (st.visited.size : Int)
  vis : ∀ x, x ∈ st.visited.keys ↔
    ∃ k ∈ done, Relation.ReflTransGen (fun a b => b ∈ adj.get a) k x
  res : ∃ n : Nat, st.res = (n : Int) ∧
    (∀ k ∈ done, ∀ C : Finset Int,
      (∀ x, x ∈ C ↔ Relation.ReflTransGen (fun a b => b ∈ adj.get a) k x) → C.card ≤ n) ∧
    ((done = [] ∧ n = 0) ∨ ∃ k ∈ done, ∃ C : Finset Int,
      (∀ x, x ∈ C ↔ Relation.ReflTransGen (fun a b => b ∈ adj.get a) k x) ∧ C.card = n)

/-! ## Facts about the map operations -/

namespace UMap

variable {T : Type}

theorem find_eq_none_iff (m : UMap T) (k : Int) : m.find k = none ↔ k ∉ m.keys := by
  induction m with
  | nil => simp [find, keys]
  | cons e rest ih =>
    obtain ⟨k', v⟩ := e
    by_cases h : k' = k
    · simp [find, keys, h]
    · have h' : ¬ k = k' := fun e => h e.symm
      simpa [find, keys, h, h'] using ih

theorem keys_subscript [Inhabited T] (m : UMap T) (k : Int) (f : T → T) :
    (m.subscript k f).keys = if k ∈ m.keys then m.keys else m.keys ++ [k] := by
  induction m with
  | nil => simp [subscript, keys]
  | cons e rest ih =>
    obtain ⟨k', v⟩ := e
    by_cases h : k' = k
    · simp [subscript, keys, h]
    · have h' : ¬ k = k' := fun e => h e.symm
      simp only [keys] at ih
      by_cases hk : k ∈ List.map Prod.fst rest
      · simp [subscript, keys, h, h', hk, ih]
      · simp [subscript, keys, h, h', hk, ih]

theorem mem_keys_subscript [Inhabited T] (m : UMap T) (k : Int) (f : T → T) (x : Int) :
    x ∈ (m.subscript k f).keys ↔ x = k ∨ x ∈ m.keys := by
  rw [keys_subscript]
  split
  · constructor
    · exact Or.inr
    · rintro (rfl | h)
      · assumption
      · exact h
  · simp [or_comm]

theorem nodup_keys_subscript [Inhabited T] (m : UMap T) (k : Int) (f : T → T)
    (h : m.keys.Nodup) : (m.subscript k f).keys.Nodup := by
  rw [keys_subscript]
  split
  · exact h
  · rename_i hk
    exact List.Nodup.append h (List.nodup_singleton k) (by simpa using hk)

theorem find_subscript [Inhabited T] (m : UMap T) (k : Int) (f : T → T) (x : Int) :
    (m.subscript k f).find x = if x = k then some (f (m.get k)) else m.find x := by
  induction m with
  | nil =>
    by_cases h : x = k
    · simp [subscript, find, get, h]
    · have h' : ¬ k = x := fun e => h e.symm
      simp [subscript, find, get, h, h']
  | cons e rest ih =>
    obtain ⟨k', v⟩ := e
    by_cases h : k' = k
    · subst h
      by_cases hx : x = k'
      · simp [subscript, find, get, hx]
      · have hx' : ¬ k' = x := fun e => hx e.symm
        simp [subscript, find, get, hx, hx']
    · by_cases hx : x = k
      · subst hx
        simp [get] at ih
        simp [subscript, find, get, h, ih]
      · by_cases hk : k' = x
        · simp [subscript, find, h, hx, hk]
        · simp [subscript, find, h, hx, hk, ih]

theorem get_subscript [Inhabited T] (m : UMap T) (k : Int) (f : T → T) (x : Int) :
    (m.subscript k f).get x = if x = k then f (m.get k) else m.get x := by
  unfold get
  rw [find_subscript]
  split <;> rfl

theorem subscript_id_of_mem [Inhabited T] (m : UMap T) (k : Int) (h : k ∈ m.keys) :
    m.subscript k id = m := by
  induction m with
  | nil => simp [keys] at h
  | cons e rest ih =>
    obtain ⟨k', v⟩ := e
    by_cases hk : k' = k
    · simp [subscript, hk]
    · have hk' : ¬ k = k' := fun e => hk e.symm
      have : k ∈ keys rest := by simpa [keys, hk'] using h
      simp [subscript, hk, ih this]

theorem get_of_not_mem [Inhabited T] (m : UMap T) (k : Int) (h : k ∉ m.keys) :
    m.get k = default := by
  unfold get
  rw [(find_eq_none_iff m k).2 h]
  rfl

theorem mem_of_find [Inhabited T] (m : UMap T) (k : Int) (v : T) (h : (k, v) ∈ m)
    (hn : m.keys.Nodup) : m.get k = v := by
  induction m with
  | nil => simp at h
  | cons e rest ih =>
    obtain ⟨k', v'⟩ := e
    simp only [keys, List.map_cons, List.nodup_cons] at hn
    by_cases hk : k' = k
    · subst hk
      rcases List.mem_cons.1 h with h1 | h1
      · cases h1
        simp [get, find]
      · exact absurd (List.mem_map_of_mem Prod.fst h1) hn.1
    · rcases List.mem_cons.1 h with h1 | h1
      · cases h1
        exact absurd rfl hk
      · have := ih h1 hn.2
        simpa [get, find, hk] using this

end UMap

/-! ## The traversal -/

theorem card_sdiff_insert_lt (U S : Finset Int) (y : Int) (hy : y ∈ U) (hS : y ∉ S) :
    (U \ insert y S).card < (U \ S).card := by
  apply Finset.card_lt_card
  rw [Finset.ssubset_iff_of_subset]
  · exact ⟨y, by simp [hy, hS], by simp⟩
  · intro x hx
    simp only [Finset.mem_sdiff, Finset.mem_insert, not_or] at hx ⊢
    exact ⟨hx.1, hx.2.2⟩

theorem recurse_loop (g : Int → List Int) (U : Finset Int)
    (fuel : Nat)
    (ih : ∀ (node : Int) (adj : AdjList) (v : Visited), (∀ x, adj.get x = g x) →
      node ∈ U → (U \ insert node v.keys.toFinset).card < fuel →
      ∃ r, recurse fuel node adj v = some r ∧ RecPost g adj v node r)
    (l : List Int) : ∀ (st : AdjList × Visited), (∀ x, st.1.get x = g x) →
      (∀ y ∈ l, y ∈ U) → (U \ st.2.keys.toFinset).card ≤ fuel →
      ∃ r, l.foldlM (fun (st : AdjList × Visited) (val : Int) =>
          if st.2.find val = none then recurse fuel val st.1 st.2 else some st) st = some r ∧
        LoopPost g st.1 st.2 l r := by
  induction l with
  | nil =>
    intro st hg _ _
    refine ⟨st, rfl, ⟨hg, fun _ _ => rfl, id, fun _ h => h, ?_, ?_, ?_⟩⟩
    · simp
    · intro x hx hn; exact absurd hx hn
    · intro x hx hn; exact absurd hx hn
  | cons y l ihl =>
    intro st hg hU hc
    have hyU : y ∈ U := hU y (List.mem_cons_self _ _)
    have hlU : ∀ z ∈ l, z ∈ U := fun z hz => hU z (List.mem_cons_of_mem _ hz)
    rw [List.foldlM_cons]
    by_cases hf : st.2.find y = none
    · have hy : y ∉ st.2.keys := (UMap.find_eq_none_iff _ _).1 hf
      have hlt : (U \ insert y st.2.keys.toFinset).card < fuel :=
        lt_of_lt_of_le (card_sdiff_insert_lt U _ y hyU (by simpa using hy)) hc
      obtain ⟨r1, hr1, p1⟩ := ih y st.1 st.2 hg hyU hlt
      have hc1 : (U \ r1.2.keys.toFinset).card ≤ fuel := by
        refine le_trans (Finset.card_le_card ?_) hc
        intro x hx
        simp only [Finset.mem_sdiff, List.mem_toFinset] at hx ⊢
        exact ⟨hx.1, fun h => hx.2 (p1.mono x h)⟩
      obtain ⟨r, hr, p⟩ := ihl r1 p1.get_eq hlU hc1
      refine ⟨r, ?_, ⟨p.get_eq, ?_, ?_, ?_, ?_, ?_, ?_⟩⟩
      · simp only [hf, if_true, hr1]
        exact hr
      · intro hk hcl
        have e1 : r1.1 = st.1 := p1.same (hk y (List.mem_cons_self _ _)) hcl
        have := p.same (by rw [e1]; exact fun z hz => hk z (List.mem_cons_of_mem _ hz))
          (by rw [e1]; exact hcl)
        rw [this, e1]
      · exact fun h => p.nodup (p1.nodup h)
      · exact fun x hx => p.mono x (p1.mono x hx)
      · intro z hz
        rcases List.mem_cons.1 hz with rfl | hz
        · exact p.mono _ p1.mem
        · exact p.all z hz
      · intro x hx hn
        by_cases h1 : x ∈ r1.2.keys
        · exact ⟨y, List.mem_cons_self _ _, p1.reach x h1 hn⟩
        · obtain ⟨z, hz, hzx⟩ := p.reach x hx h1
          exact ⟨z, List.mem_cons_of_mem _ hz, hzx⟩
      · intro x hx hn
        by_cases h1 : x ∈ r1.2.keys
        · exact fun z hz => p.mono z (p1.done x h1 hn z hz)
        · exact p.done x hx h1
    · have hy : y ∈ st.2.keys := by
        by_contra h
        exact hf ((UMap.find_eq_none_iff _ _).2 h)
      obtain ⟨r, hr, p⟩ := ihl st hg hlU hc
      refine ⟨r, ?_, ⟨p.get_eq, ?_, p.nodup, p.mono, ?_, ?_, p.done⟩⟩
      · simp only [hf, if_false]
        exact hr
      · exact fun hk hcl => p.same (fun z hz => hk z (List.mem_cons_of_mem _ hz)) hcl
      · intro z hz
        rcases List.mem_cons.1 hz with rfl | hz
        · exact p.mono _ hy
        · exact p.all z hz
      · intro x hx hn
        obtain ⟨z, hz, hzx⟩ := p.reach x hx hn
        exact ⟨z, List.mem_cons_of_mem _ hz, hzx⟩

/-- With a budget above the number of nodes still unvisited, `recurse` returns, and
the maps it leaves satisfy `RecPost`. -/
theorem recurse_spec (g : Int → List Int) (U : Finset Int)
    (hU : ∀ a ∈ U, ∀ b ∈ g a, b ∈ U) (fuel : Nat) :
    ∀ (node : Int) (adj : AdjList) (v : Visited), (∀ x, adj.get x = g x) →
      node ∈ U → (U \ insert node v.keys.toFinset).card < fuel →
      ∃ r, recurse fuel node adj v = some r ∧ RecPost g adj v node r := by
  induction fuel with
  | zero => intro node adj v _ _ h; exact absurd h (Nat.not_lt_zero _)
  | succ fuel ih =>
    intro node adj v hg hn hc
    have hg1 : ∀ x, (adj.subscript node id).get x = g x := by
      intro x
      rw [UMap.get_subscript]
      split
      · rename_i h; rw [h, id, hg]
      · exact hg x
    have hk1 : ∀ x, x ∈ (v.subscript node (fun _ => true)).keys ↔ x = node ∨ x ∈ v.keys :=
      UMap.mem_keys_subscript v node _
    have hc1 : (U \ (v.subscript node (fun _ => true)).keys.toFinset).card ≤ fuel := by
      refine le_trans (Finset.card_le_card ?_) (Nat.lt_succ_iff.1 hc)
      intro x hx
      simp only [Finset.mem_sdiff, List.mem_toFinset, Finset.mem_insert, hk1] at hx ⊢
      exact hx
    have hl : ∀ y ∈ (adj.subscript node id).get node, y ∈ U := by
      intro y hy
      rw [hg1] at hy
      exact hU node hn y hy
    obtain ⟨r, hr, p⟩ := recurse_loop g U fuel ih ((adj.subscript node id).get node)
      (adj.subscript node id, v.subscript node (fun _ => true)) hg1 hl hc1
    refine ⟨r, hr, ⟨p.get_eq, ?_, ?_, ?_, ?_, ?_, ?_⟩⟩
    · intro hk hcl
      have e : adj.subscript node id = adj := UMap.subscript_id_of_mem adj node hk
      have := p.same (by
        intro y hy
        rw [hg1] at hy
        show y ∈ (adj.subscript node id).keys
        rw [e]
        exact hcl node hk y hy) (by
        show ∀ a ∈ (adj.subscript node id).keys, ∀ b ∈ g a, b ∈ (adj.subscript node id).keys
        rw [e]; exact hcl)
      rw [this]; exact e
    · exact fun h => p.nodup (UMap.nodup_keys_subscript v node _ h)
    · exact fun x hx => p.mono x ((hk1 x).2 (Or.inr hx))
    · exact p.mono node ((hk1 node).2 (Or.inl rfl))
    · intro x hx hnv
      by_cases h1 : x = node
      · rw [h1]
      · obtain ⟨y, hy, hyx⟩ := p.reach x hx (by
          show x ∉ (v.subscript node (fun _ => true)).keys
          rw [hk1]; exact fun h => h.elim h1 hnv)
        rw [hg1] at hy
        exact Relation.ReflTransGen.head hy hyx
    · intro x hx hnv
      by_cases h1 : x = node
      · intro y hy
        rw [h1] at hy
        exact p.all y (by rw [hg1]; exact hy)
      · exact p.done x hx (by
          show x ∉ (v.subscript node (fun _ => true)).keys
          rw [hk1]; exact fun h => h.elim h1 hnv)

theorem reach_symm (adj : AdjList) (hsym : ∀ a b, b ∈ adj.get a → a ∈ adj.get b)
    {a b : Int} (h : Relation.ReflTransGen (fun a b => b ∈ adj.get a) a b) :
    Relation.ReflTransGen (fun a b => b ∈ adj.get a) b a := by
  induction h with
  | refl => exact Relation.ReflTransGen.refl
  | tail _ hbc ih => exact Relation.ReflTransGen.head (hsym _ _ hbc) ih

theorem dfsStep_spec (adj : AdjList)
    (hsym : ∀ a b, b ∈ adj.get a → a ∈ adj.get b)
    (hcl : ∀ a ∈ adj.keys, ∀ b ∈ adj.get a, b ∈ adj.keys)
    (fuel : Nat) (hf : adj.keys.length < fuel) (done : List Int) (st : DfsState)
    (inv : DfsInv adj done st) (key : Int) (hk : key ∈ adj.keys) :
    ∃ st', dfsStep fuel st key = some st' ∧ DfsInv adj (done ++ [key]) st' := by
  obtain ⟨n, hn, hle, hex⟩ := inv.res
  by_cases hfind : st.visited.find key = none
  · have hkv : key ∉ st.visited.keys := (UMap.find_eq_none_iff _ _).1 hfind
    have hU : ∀ a ∈ adj.keys.toFinset, ∀ b ∈ adj.get a, b ∈ adj.keys.toFinset := by
      intro a ha b hb
      rw [List.mem_toFinset] at ha ⊢
      exact hcl a ha b hb
    have hcard : (adj.keys.toFinset \ insert key st.visited.keys.toFinset).card < fuel :=
      lt_of_le_of_lt (le_trans (Finset.card_le_card Finset.sdiff_subset)
        (List.toFinset_card_le _)) hf
    obtain ⟨r, hr, p⟩ := recurse_spec adj.get adj.keys.toFinset hU fuel key st.adj_list
      st.visited (by rw [inv.adj_eq]; intro x; rfl) (List.mem_toFinset.2 hk) hcard
    have hr1 : r.1 = adj := by
      have := p.same (by rw [inv.adj_eq]; exact hk) (by rw [inv.adj_eq]; exact hcl)
      rw [this, inv.adj_eq]
    have hvis : ∀ x, x ∈ r.2.keys ↔ x ∈ st.visited.keys ∨
        Relation.ReflTransGen (fun a b => b ∈ adj.get a) key x := by
      intro x
      constructor
      · intro hx
        by_cases h : x ∈ st.visited.keys
        · exact Or.inl h
        · exact Or.inr (p.reach x hx h)
      · rintro (h | h)
        · exact p.mono x h
        · induction h with
          | refl => exact p.mem
          | @tail b c _ hbc ih =>
            by_cases hb : b ∈ st.visited.keys
            · obtain ⟨k, hkd, hkb⟩ := (inv.vis b).1 hb
              exact p.mono c ((inv.vis c).2 ⟨k, hkd, Relation.ReflTransGen.tail hkb hbc⟩)
            · exact p.done b ih hb c hbc
    have hdisj : ∀ x, Relation.ReflTransGen (fun a b => b ∈ adj.get a) key x →
        x ∉ st.visited.keys := by
      intro x hx hxv
      obtain ⟨k, hkd, hkx⟩ := (inv.vis x).1 hxv
      exact hkv ((inv.vis key).2 ⟨k, hkd, hkx.trans (reach_symm adj hsym hx)⟩)
    have hC : ∀ x, x ∈ r.2.keys.toFinset \ st.visited.keys.toFinset ↔
        Relation.ReflTransGen (fun a b => b ∈ adj.get a) key x := by
      intro x
      rw [Finset.mem_sdiff, List.mem_toFinset, List.mem_toFinset, hvis]
      constructor
      · rintro ⟨h | h, h'⟩
        · exact absurd h h'
        · exact h
      · exact fun h => ⟨Or.inr h, hdisj x h⟩
    have hsub : st.visited.keys.toFinset ⊆ r.2.keys.toFinset := by
      intro x hx
      rw [List.mem_toFinset] at hx ⊢
      exact p.mono x hx
    have hcardC : ((r.2.keys.toFinset \ st.visited.keys.toFinset).card : Int) =
        (r.2.size : Int) - st.prev := by
      have h1 := Finset.card_sdiff_add_card_eq_card hsub
      rw [List.toFinset_card_of_nodup inv.nodup,
        List.toFinset_card_of_nodup (p.nodup inv.nodup)] at h1
      rw [inv.prev_eq]
      simp only [UMap.size, UMap.keys, List.length_map] at h1 ⊢
      omega
    refine ⟨{ adj_list := r.1, visited := r.2,
              res := max ((r.2.size : Int) - st.prev) st.res, prev := (r.2.size : Int) },
      by simp only [dfsStep, hfind, if_true, hr, Option.map_some'], ?_⟩
    refine ⟨hr1, p.nodup inv.nodup, rfl, ?_, ?_⟩
    · intro x
      show x ∈ r.2.keys ↔ _
      rw [hvis, inv.vis]
      constructor
      · rintro (⟨k, hkd, h⟩ | h)
        · exact ⟨k, List.mem_append_left _ hkd, h⟩
        · exact ⟨key, by simp, h⟩
      · rintro ⟨k, hkd, h⟩
        rcases List.mem_append.1 hkd with h1 | h1
        · exact Or.inl ⟨k, h1, h⟩
        · rw [List.mem_singleton] at h1
          subst h1
          exact Or.inr h
    · refine ⟨max (r.2.keys.toFinset \ st.visited.keys.toFinset).card n, ?_, ?_, ?_⟩
      · show max ((r.2.size : Int) - st.prev) st.res = _
        rw [← hcardC, hn]
        push_cast
        rfl
      · intro k hkd C hCk
        rcases List.mem_append.1 hkd with h1 | h1
        · exact le_trans (hle k h1 C hCk) (le_max_right _ _)
        · rw [List.mem_singleton] at h1
          subst h1
          have : C = r.2.keys.toFinset \ st.visited.keys.toFinset := by
            ext x; rw [hCk, hC]
          rw [this]
          exact le_max_left _ _
      · right
        rcases le_total n (r.2.keys.toFinset \ st.visited.keys.toFinset).card with h | h
        · exact ⟨key, by simp, _, hC, (max_eq_left h).symm⟩
        · rcases hex with ⟨hd, h0⟩ | ⟨k, hkd, C, hCk, hCn⟩
          · subst h0
            exact ⟨key, by simp, _, hC, by
              rw [Nat.le_zero.1 h]; rfl⟩
          · exact ⟨k, List.mem_append_left _ hkd, C, hCk, by rw [hCn, max_eq_right h]⟩
  · have hkv : key ∈ st.visited.keys := by
      by_contra h
      exact hfind ((UMap.find_eq_none_iff _ _).2 h)
    obtain ⟨k0, hk0, hk0key⟩ := (inv.vis key).1 hkv
    refine ⟨{ adj_list := st.adj_list, visited := st.visited,
              res := max ((st.visited.size : Int) - st.prev) st.res,
              prev := (st.visited.size : Int) },
      by simp only [dfsStep, hfind, if_false, Option.map_some'], ?_⟩
    refine ⟨inv.adj_eq, inv.nodup, rfl, ?_, ?_⟩
    · intro x
      show x ∈ st.visited.keys ↔ _
      rw [inv.vis]
      constructor
      · rintro ⟨k, hkd, h⟩
        exact ⟨k, List.mem_append_left _ hkd, h⟩
      · rintro ⟨k, hkd, h⟩
        rcases List.mem_append.1 hkd with h1 | h1
        · exact ⟨k, h1, h⟩
        · rw [List.mem_singleton] at h1
          subst h1
          exact ⟨k0, hk0, hk0key.trans h⟩
    · refine ⟨n, ?_, ?_, ?_⟩
      · show max ((st.visited.size : Int) - st.prev) st.res = _
        rw [inv.prev_eq, hn]
        simp
      · intro k hkd C hCk
        rcases List.mem_append.1 hkd with h1 | h1
        · exact hle k h1 C hCk
        · rw [List.mem_singleton] at h1
          subst h1
          refine hle k0 hk0 C (fun x => ?_)
          rw [hCk]
          exact ⟨fun h => hk0key.trans h, fun h => (reach_symm adj hsym hk0key).trans h⟩
      · right
        rcases hex with ⟨hd, _⟩ | ⟨k, hkd, C, hCk, hCn⟩
        · subst hd
          simp at hk0
        · exact ⟨k, List.mem_append_left _ hkd, C, hCk, hCn⟩

theorem dfs_fold_spec (adj : AdjList)
    (hsym : ∀ a b, b ∈ adj.get a → a ∈ adj.get b)
    (hcl : ∀ a ∈ adj.keys, ∀ b ∈ adj.get a, b ∈ adj.keys)
    (fuel : Nat) (hf : adj.keys.length < fuel) (rest : List Int) :
    ∀ (done : List Int) (st : DfsState), (∀ k ∈ rest, k ∈ adj.keys) → DfsInv adj done st →
      ∃ st', rest.foldlM (dfsStep fuel) st = some st' ∧ DfsInv adj (done ++ rest) st' := by
  induction rest with
  | nil =>
    intro done st _ inv
    exact ⟨st, rfl, by simpa using inv⟩
  | cons key rest ih =>
    intro done st hk inv
    obtain ⟨st1, h1, inv1⟩ := dfsStep_spec adj hsym hcl fuel hf done st inv key
      (hk key (List.mem_cons_self _ _))
    obtain ⟨st2, h2, inv2⟩ := ih (done ++ [key]) st1
      (fun k hk' => hk k (List.mem_cons_of_mem _ hk')) inv1
    refine ⟨st2, ?_, by simpa using inv2⟩
    rw [List.foldlM_cons, h1]
    exact h2

theorem UMap.find_some_mem {T : Type} (m : UMap T) (k : Int) (v : T)
    (h : m.find k = some v) : (k, v) ∈ m := by
  induction m with
  | nil => simp [UMap.find] at h
  | cons e rest ih =>
    obtain ⟨k', v'⟩ := e
    by_cases hk : k' = k
    · simp only [UMap.find, hk, if_true, Option.some.injEq] at h
      simp [hk, h]
    · simp only [UMap.find, hk, if_false] at h
      exact List.mem_cons_of_mem _ (ih h)

theorem get_mem_entry (adj : AdjList) (a b : Int) (h : b ∈ adj.get a) :
    ∃ e ∈ adj, e.1 = a ∧ b ∈ e.2 := by
  unfold UMap.get at h
  cases hf : adj.find a with
  | none =>
    rw [hf] at h
    simp [default] at h
  | some v =>
    rw [hf] at h
    exact ⟨(a, v), UMap.find_some_mem adj a v hf, rfl, h⟩

theorem symmetric_of_entries (adj : AdjList) (hs : SymmetricEntries adj) :
    adj.Symmetric := by
  intro a b h
  obtain ⟨e, he, rfl, hb⟩ := get_mem_entry adj a b h
  exact hs e he b hb

theorem closed_of_entries (adj : AdjList) (hc : ClosedEntries adj) : adj.Closed := by
  intro a b h
  obtain ⟨e, he, rfl, hb⟩ := get_mem_entry adj a b h
  exact hc e he b hb

theorem mem_keys_of_get (adj : AdjList) (a b : Int) (h : b ∈ adj.get a) : a ∈ adj.keys := by
  obtain ⟨e, he, rfl, _⟩ := get_mem_entry adj a b h
  exact List.mem_map_of_mem Prod.fst he

/-- In a symmetric and closed map, connection in the graph on the keys is a chain of
stored edges. -/
theorem connected_iff_reach (adj : AdjList) (hs : adj.Symmetric) (hc : adj.Closed)
    (a b : Int) : Connected adj.keys.toFinset adj.Edge a b ↔
      Relation.ReflTransGen (fun a b => b ∈ adj.get a) a b := by
  constructor
  · apply Relation.ReflTransGen.mono
    rintro x y ⟨_, _, h | h⟩
    · exact h
    · exact hs y x h
  · apply Relation.ReflTransGen.mono
    intro x y h
    exact ⟨List.mem_toFinset.2 (mem_keys_of_get adj x y h),
      List.mem_toFinset.2 (hc x y h), Or.inl h⟩

/-- The largest component size of a graph is unique. -/
theorem isLargestComponentSize_unique (nodes : Finset Int) (edge : Int → Int → Prop)
    (n m : Nat) (hn : IsLargestComponentSize nodes edge n)
    (hm : IsLargestComponentSize nodes edge m) : n = m := by
  obtain ⟨hn1, hn2⟩ := hn
  obtain ⟨hm1, hm2⟩ := hm
  rcases hn2 with ⟨he, h0⟩ | ⟨a, C, hC, hCn⟩
  · rcases hm2 with ⟨_, h0'⟩ | ⟨a, C, hC, _⟩
    · rw [h0, h0']
    · exact absurd hC.1 (by rw [he]; simp)
  · rcases hm2 with ⟨he, _⟩ | ⟨a', C', hC', hCm⟩
    · exact absurd hC.1 (by rw [he]; simp)
    · exact le_antisymm (hCn ▸ hm1 a C hC) (hCm ▸ hn1 a' C' hC')

/-- The loop of `dfs` on a symmetric, closed map: with any budget above the number of
keys it ends, leaves the map as it was, has visited exactly the keys, and `res` is the
size of the largest connected component. -/
theorem dfsLoop_spec (adj : AdjList) (hs : adj.Symmetric) (hc : adj.Closed)
    (fuel : Nat) (hf : adj.keys.length < fuel) :
    ∃ (st : DfsState) (n : Nat), dfsLoop fuel adj = some st ∧ st.adj_list = adj ∧
      st.res = (n : Int) ∧
      IsLargestComponentSize adj.keys.toFinset adj.Edge n := by
  have hsym : ∀ a b, b ∈ adj.get a → a ∈ adj.get b := hs
  have hcl : ∀ a ∈ adj.keys, ∀ b ∈ adj.get a, b ∈ adj.keys := fun a _ b h => hc a b h
  have inv0 : DfsInv adj [] { adj_list := adj, visited := [], res := 0, prev := 0 } :=
    ⟨rfl, List.nodup_nil, rfl, by simp [UMap.keys], 0, rfl, by simp, Or.inl ⟨rfl, rfl⟩⟩
  obtain ⟨st, hst, inv⟩ := dfs_fold_spec adj hsym hcl fuel hf adj.keys [] _
    (fun _ h => h) inv0
  rw [List.nil_append] at inv
  obtain ⟨n, hn, hle, hex⟩ := inv.res
  refine ⟨st, n, hst, inv.adj_eq, hn, ?_, ?_⟩
  · rintro a C ⟨ha, hC⟩
    exact hle a (List.mem_toFinset.1 ha) C
      (fun x => (hC x).trans (connected_iff_reach adj hs hc a x))
  · rcases hex with ⟨he, h0⟩ | ⟨k, hk, C, hC, hCn⟩
    · exact Or.inl ⟨by rw [he]; rfl, h0⟩
    · exact Or.inr ⟨k, C, ⟨List.mem_toFinset.2 hk,
        fun x => (hC x).trans (connected_iff_reach adj hs hc k x).symm⟩, hCn⟩

theorem keys_length_lt_callBudget (adj : AdjList) : adj.keys.length < callBudget adj := by
  simp only [callBudget, nodeList, List.length_append]
  omega

/-- The function `dfs` on a symmetric, closed map returns the size of the largest
connected component of the graph on the keys. -/
theorem dfs_spec (adj : AdjList) (hs : adj.Symmetric) (hc : adj.Closed) :
    ∃ n : Nat, dfs adj = some (n : Int) ∧
      IsLargestComponentSize adj.keys.toFinset adj.Edge n := by
  obtain ⟨st, n, hst, _, hn, hl⟩ :=
    dfsLoop_spec adj hs hc (callBudget adj) (keys_length_lt_callBudget adj)
  exact ⟨n, by simp only [dfs, hst, Option.map_some', hn], hl⟩

/-! ## The graph builder -/

theorem get_addEdge (adj : AdjList) (x y a b : Int) :
    b ∈ (addEdge adj x y).get a ↔ b ∈ adj.get a ∨ (a = x ∧ b = y) ∨ (a = y ∧ b = x) := by
  simp only [addEdge, UMap.get_subscript]
  by_cases h1 : a = y <;> by_cases h2 : a = x <;> by_cases h3 : y = x <;>
    simp_all

theorem mem_keys_addEdge (adj : AdjList) (x y k : Int) :
    k ∈ (addEdge adj x y).keys ↔ k ∈ adj.keys ∨ k = x ∨ k = y := by
  simp only [addEdge, UMap.mem_keys_subscript]
  tauto

theorem nodup_keys_addEdge (adj : AdjList) (x y : Int) (h : adj.keys.Nodup) :
    (addEdge adj x y).keys.Nodup :=
  UMap.nodup_keys_subscript _ _ _ (UMap.nodup_keys_subscript _ _ _ h)

theorem rowEdge_nil (x a b : Int) : ¬ RowEdge x [] a b := by
  rintro ⟨y, hy, _⟩
  simp at hy

theorem rowEdge_cons (x y : Int) (l : List Int) (a b : Int) :
    RowEdge x (y :: l) a b ↔
      (1 < Int.gcd x y ∧ ((a = x ∧ b = y) ∨ (a = y ∧ b = x))) ∨ RowEdge x l a b := by
  constructor
  · rintro ⟨z, hz, hg, h⟩
    rcases List.mem_cons.1 hz with rfl | hz
    · exact Or.inl ⟨hg, h⟩
    · exact Or.inr ⟨z, hz, hg, h⟩
  · rintro (⟨hg, h⟩ | ⟨z, hz, hg, h⟩)
    · exact ⟨y, List.mem_cons_self _ _, hg, h⟩
    · exact ⟨z, List.mem_cons_of_mem _ hz, hg, h⟩

theorem createRow_cons (adj : AdjList) (x y : Int) (l : List Int) :
    createRow adj x (y :: l) =
      createRow (if Int.gcd x y > 1 then addEdge adj x y else adj) x l := rfl

theorem get_createRow (x : Int) (later : List Int) : ∀ (adj : AdjList) (a b : Int),
    b ∈ (createRow adj x later).get a ↔ b ∈ adj.get a ∨ RowEdge x later a b := by
  induction later with
  | nil =>
    intro adj a b
    simp [createRow, rowEdge_nil]
  | cons y l ih =>
    intro adj a b
    rw [createRow_cons, ih, rowEdge_cons]
    by_cases hg : Int.gcd x y > 1
    · rw [if_pos hg, get_addEdge]
      have hg' : 1 < Int.gcd x y := hg
      simp only [hg', true_and]
      tauto
    · rw [if_neg hg]
      have hg' : ¬ 1 < Int.gcd x y := hg
      simp only [hg', false_and, false_or]

theorem mem_keys_createRow (x : Int) (later : List Int) : ∀ (adj : AdjList) (k : Int),
    k ∈ (createRow adj x later).keys ↔ k ∈ adj.keys ∨ ∃ b, RowEdge x later k b := by
  induction later with
  | nil =>
    intro adj k
    simp [createRow, rowEdge_nil]
  | cons y l ih =>
    intro adj k
    rw [createRow_cons, ih]
    simp only [rowEdge_cons]
    by_cases hg : Int.gcd x y > 1
    · rw [if_pos hg, mem_keys_addEdge]
      have hg' : 1 < Int.gcd x y := hg
      simp only [hg', true_and]
      constructor
      · rintro ((h | rfl | rfl) | ⟨b, hb⟩)
        · exact Or.inl h
        · exact Or.inr ⟨y, Or.inl (Or.inl ⟨rfl, rfl⟩)⟩
        · exact Or.inr ⟨x, Or.inl (Or.inr ⟨rfl, rfl⟩)⟩
        · exact Or.inr ⟨b, Or.inr hb⟩
      · rintro (h | ⟨b, (⟨h, _⟩ | ⟨h, _⟩) | hb⟩)
        · exact Or.inl (Or.inl h)
        · exact Or.inl (Or.inr (Or.inl h))
        · exact Or.inl (Or.inr (Or.inr h))
        · exact Or.inr ⟨b, hb⟩
    · rw [if_neg hg]
      have hg' : ¬ 1 < Int.gcd x y := hg
      simp only [hg', false_and, false_or]

theorem nodup_keys_createRow (x : Int) (later : List Int) : ∀ (adj : AdjList),
    adj.keys.Nodup → (createRow adj x later).keys.Nodup := by
  induction later with
  | nil => intro adj h; exact h
  | cons y l ih =>
    intro adj h
    rw [createRow_cons]
    apply ih
    split
    · exact nodup_keys_addEdge adj x y h
    · exact h

theorem gcdEdge_symm (nums : List Int) (a b : Int) (h : GcdEdge nums a b) :
    GcdEdge nums b a := by
  obtain ⟨i, j, hij, hi, hj, hg⟩ := h
  exact ⟨j, i, fun e => hij e.symm, hj, hi, by rwa [Int.gcd_comm]⟩

theorem gcdEdge_cons (x : Int) (rest : List Int) (a b : Int) :
    GcdEdge (x :: rest) a b ↔ RowEdge x rest a b ∨ GcdEdge rest a b := by
  constructor
  · rintro ⟨i, j, hij, hi, hj, hg⟩
    cases i with
    | zero =>
      cases j with
      | zero => exact absurd rfl hij
      | succ j =>
        simp only [List.getElem?_cons_zero, Option.some.injEq] at hi
        rw [List.getElem?_cons_succ] at hj
        subst hi
        exact Or.inl ⟨b, List.getElem?_mem hj, hg, Or.inl ⟨rfl, rfl⟩⟩
    | succ i =>
      rw [List.getElem?_cons_succ] at hi
      cases j with
      | zero =>
        simp only [List.getElem?_cons_zero, Option.some.injEq] at hj
        subst hj
        exact Or.inl ⟨a, List.getElem?_mem hi, by rwa [Int.gcd_comm],
          Or.inr ⟨rfl, rfl⟩⟩
      | succ j =>
        rw [List.getElem?_cons_succ] at hj
        exact Or.inr ⟨i, j, fun e => hij (by rw [e]), hi, hj, hg⟩
  · rintro (⟨y, hy, hg, h⟩ | ⟨i, j, hij, hi, hj, hg⟩)
    · obtain ⟨n, hn⟩ := List.getElem?_of_mem hy
      rcases h with ⟨rfl, rfl⟩ | ⟨rfl, rfl⟩
      · exact ⟨0, n + 1, by omega, List.getElem?_cons_zero,
          by rw [List.getElem?_cons_succ]; exact hn, hg⟩
      · exact ⟨n + 1, 0, by omega, by rw [List.getElem?_cons_succ]; exact hn,
          List.getElem?_cons_zero, by rwa [Int.gcd_comm]⟩
    · exact ⟨i + 1, j + 1, by omega, by rw [List.getElem?_cons_succ]; exact hi,
        by rw [List.getElem?_cons_succ]; exact hj, hg⟩

theorem gcdEdge_nil (a b : Int) : ¬ GcdEdge [] a b := by
  rintro ⟨i, j, _, hi, _⟩
  simp at hi

theorem get_create_graph (nums : List Int) : ∀ (adj : AdjList) (a b : Int),
    b ∈ (create_graph adj nums).get a ↔ b ∈ adj.get a ∨ GcdEdge nums a b := by
  induction nums with
  | nil =>
    intro adj a b
    simp [create_graph, gcdEdge_nil]
  | cons x rest ih =>
    intro adj a b
    rw [create_graph, ih, get_createRow, gcdEdge_cons, or_assoc]

theorem mem_keys_create_graph (nums : List Int) : ∀ (adj : AdjList) (k : Int),
    k ∈ (create_graph adj nums).keys ↔ k ∈ adj.keys ∨ ∃ b, GcdEdge nums k b := by
  induction nums with
  | nil =>
    intro adj k
    simp [create_graph, gcdEdge_nil]
  | cons x rest ih =>
    intro adj k
    rw [create_graph, ih, mem_keys_createRow]
    simp only [gcdEdge_cons, exists_or, or_assoc]

theorem nodup_keys_create_graph (nums : List Int) : ∀ (adj : AdjList),
    adj.keys.Nodup → (create_graph adj nums).keys.Nodup := by
  induction nums with
  | nil => intro adj h; exact h
  | cons x rest ih =>
    intro adj h
    rw [create_graph]
    exact ih _ (nodup_keys_createRow x rest adj h)

/-- The stored edges of the map built from the empty map are the edges of the
specified graph. -/
theorem edge_create_graph (nums : List Int) (a b : Int) :
    (create_graph [] nums).Edge a b ↔ GcdEdge nums a b := by
  unfold AdjList.Edge
  rw [get_create_graph]
  simp [UMap.get, UMap.find, default]

theorem keys_create_graph (nums : List Int) (k : Int) :
    k ∈ (create_graph [] nums).keys ↔ ∃ b, GcdEdge nums k b := by
  rw [mem_keys_create_graph]
  simp [UMap.keys]

theorem symmetric_create_graph (nums : List Int) : (create_graph [] nums).Symmetric := by
  intro a b h
  rw [edge_create_graph] at h ⊢
  exact gcdEdge_symm nums a b h

theorem closed_create_graph (nums : List Int) : (create_graph [] nums).Closed := by
  intro a b h
  rw [edge_create_graph] at h
  rw [keys_create_graph]
  exact ⟨a, gcdEdge_symm nums a b h⟩

theorem largest_component_size_eq (nums : List Int) :
    largest_component_size nums nums.length = dfs (create_graph [] nums) := by
  simp [largest_component_size, _largest_component_size]

/-! ## The graph of the specification -/

theorem gcdEdge_mem_left (nums : List Int) (a b : Int) (h : GcdEdge nums a b) : a ∈ nums := by
  obtain ⟨i, _, _, hi, _, _⟩ := h
  exact List.getElem?_mem hi

theorem mem_linkedSet (nums : List Int) (a : Int) :
    a ∈ linkedSet nums ↔ ∃ b, GcdEdge nums a b := by
  simp only [linkedSet, Finset.mem_filter, List.mem_toFinset]
  constructor
  · rintro ⟨_, b, _, h⟩
    exact ⟨b, h⟩
  · rintro ⟨b, h⟩
    exact ⟨gcdEdge_mem_left nums a b h, b,
      gcdEdge_mem_left nums b a (gcdEdge_symm nums a b h), h⟩

theorem keys_toFinset_create_graph (nums : List Int) :
    (create_graph [] nums).keys.toFinset = linkedSet nums := by
  ext a
  rw [List.mem_toFinset, keys_create_graph, mem_linkedSet]

theorem edge_eq_gcdEdge (nums : List Int) : (create_graph [] nums).Edge = GcdEdge nums := by
  funext a b
  exact propext (edge_create_graph nums a b)

/-- What `largest_component_size` returns: the size of the largest component of the
graph on the values that have an edge. -/
theorem largest_component_size_linked (nums : List Int) :
    ∃ n : Nat, largest_component_size nums nums.length = some (n : Int) ∧
      IsLargestComponentSize (linkedSet nums) (GcdEdge nums) n := by
  obtain ⟨n, hn, hl⟩ := dfs_spec (create_graph [] nums) (symmetric_create_graph nums)
    (closed_create_graph nums)
  rw [keys_toFinset_create_graph, edge_eq_gcdEdge] at hl
  exact ⟨n, by rw [largest_component_size_eq]; exact hn, hl⟩

theorem linkedSet_subset (nums : List Int) : linkedSet nums ⊆ valueSet nums :=
  Finset.filter_subset _ _

theorem joined_valueSet_iff (nums : List Int) (a b : Int) :
    Joined (valueSet nums) (GcdEdge nums) a b ↔ Joined (linkedSet nums) (GcdEdge nums) a b := by
  constructor
  · rintro ⟨_, _, h⟩
    have hab : GcdEdge nums a b := h.elim id (gcdEdge_symm nums b a)
    exact ⟨(mem_linkedSet nums a).2 ⟨b, hab⟩,
      (mem_linkedSet nums b).2 ⟨a, gcdEdge_symm nums a b hab⟩, h⟩
  · rintro ⟨ha, hb, h⟩
    exact ⟨linkedSet_subset nums ha, linkedSet_subset nums hb, h⟩

theorem connected_valueSet_iff (nums : List Int) (a b : Int) :
    Connected (valueSet nums) (GcdEdge nums) a b ↔
      Connected (linkedSet nums) (GcdEdge nums) a b := by
  constructor <;>
  · apply Relation.ReflTransGen.mono
    intro x y h
    first
      | exact (joined_valueSet_iff nums x y).1 h
      | exact (joined_valueSet_iff nums x y).2 h

theorem connected_of_not_joined (nodes : Finset Int) (edge : Int → Int → Prop) (a x : Int)
    (h : ∀ y, ¬ Joined nodes edge a y) (hc : Connected nodes edge a x) : x = a := by
  rcases Relation.ReflTransGen.cases_head hc with h1 | ⟨c, hac, _⟩
  · exact h1.symm
  · exact absurd hac (h c)

theorem mem_of_isComponentOf (nodes : Finset Int) (edge : Int → Int → Prop) (a : Int)
    (C : Finset Int) (h : IsComponentOf nodes edge a C) : a ∈ C :=
  (h.2 a).2 Relation.ReflTransGen.refl

/-- When some pair of positions is linked, the largest component of the graph on the
linked values is the largest component of the graph on all values. -/
theorem isLargest_valueSet (nums : List Int) (n : Nat)
    (h : IsLargestComponentSize (linkedSet nums) (GcdEdge nums) n)
    (hne : ∃ a b, GcdEdge nums a b) :
    IsLargestComponentSize (valueSet nums) (GcdEdge nums) n := by
  obtain ⟨hle, hex⟩ := h
  obtain ⟨a0, b0, hab0⟩ := hne
  have ha0 : a0 ∈ linkedSet nums := (mem_linkedSet nums a0).2 ⟨b0, hab0⟩
  obtain ⟨a1, C1, hC1, hn1⟩ : ∃ a C, IsComponentOf (linkedSet nums) (GcdEdge nums) a C ∧
      C.card = n := by
    rcases hex with ⟨he, _⟩ | h
    · rw [he] at ha0
      simp at ha0
    · exact h
  have hpos : 1 ≤ n := by
    rw [← hn1]
    exact Finset.card_pos.2 ⟨a1, mem_of_isComponentOf _ _ _ _ hC1⟩
  constructor
  · rintro a C ⟨ha, hC⟩
    by_cases hl : a ∈ linkedSet nums
    · exact hle a C ⟨hl, fun x => (hC x).trans (connected_valueSet_iff nums a x)⟩
    · have hCa : C = {a} := by
        ext x
        rw [hC, Finset.mem_singleton]
        constructor
        · apply connected_of_not_joined
          intro y hy
          exact hl ((joined_valueSet_iff nums a y).1 hy).1
        · rintro rfl
          exact Relation.ReflTransGen.refl
      rw [hCa, Finset.card_singleton]
      exact hpos
  · right
    exact ⟨a1, C1, ⟨linkedSet_subset nums hC1.1,
      fun x => (hC1.2 x).trans (connected_valueSet_iff nums a1 x).symm⟩, hn1⟩

theorem gcdEdge_of_lt (nums : List Int) (i j : Nat) (a b : Int) (hij : i < j)
    (hi : nums[i]? = some a) (hj : nums[j]? = some b) (hg : 1 < Int.gcd a b) :
    GcdEdge nums a b :=
  ⟨i, j, Nat.ne_of_lt hij, hi, hj, hg⟩

theorem not_gcdEdge_of_pairwise (nums : List Int)
    (h : nums.Pairwise (fun x y => ¬ 1 < Int.gcd x y)) (a b : Int) : ¬ GcdEdge nums a b := by
  induction nums with
  | nil => exact gcdEdge_nil a b
  | cons x rest ih =>
    rw [List.pairwise_cons] at h
    rw [gcdEdge_cons]
    rintro (⟨y, hy, hg, _⟩ | h')
    · exact h.1 y hy hg
    · exact ih h.2 h'

theorem create_graph_eq_nil (nums : List Int) (h : ∀ a b, ¬ GcdEdge nums a b) :
    create_graph [] nums = [] := by
  have hk : ∀ k, k ∉ (create_graph [] nums).keys := by
    intro k hk
    obtain ⟨b, hb⟩ := (keys_create_graph nums k).1 hk
    exact h k b hb
  cases hG : create_graph [] nums with
  | nil => rfl
  | cons e rest =>
    rw [hG] at hk
    exact absurd (List.mem_cons_self _ _) (hk e.1)

theorem iota_eq (n : Nat) : ∀ k : Nat, iota n (k : Int) = (List.range' k n).map Int.ofNat := by
  induction n with
  | zero => intro k; rfl
  | succ n ih =>
    intro k
    have h := ih (k + 1)
    rw [Nat.cast_add, Nat.cast_one] at h
    rw [iota, h]
    rfl

theorem connected_mem (nodes : Finset Int) (edge : Int → Int → Prop) (a b : Int)
    (ha : a ∈ nodes) (h : Connected nodes edge a b) : b ∈ nodes := by
  induction h with
  | refl => exact ha
  | tail _ hbc _ => exact hbc.2.1

theorem isLargest_congr (nodes : Finset Int) (e e' : Int → Int → Prop) (n : Nat)
    (hconn : ∀ a b, Connected nodes e a b ↔ Connected nodes e' a b)
    (h : IsLargestComponentSize nodes e n) : IsLargestComponentSize nodes e' n := by
  have hC : ∀ a C, IsComponentOf nodes e a C ↔ IsComponentOf nodes e' a C := by
    intro a C
    constructor
    · rintro ⟨ha, h⟩
      exact ⟨ha, fun x => (h x).trans (hconn a x)⟩
    · rintro ⟨ha, h⟩
      exact ⟨ha, fun x => (h x).trans (hconn a x).symm⟩
  obtain ⟨h1, h2⟩ := h
  refine ⟨fun a C hc => h1 a C ((hC a C).2 hc), ?_⟩
  rcases h2 with h2 | ⟨a, C, hc, hn⟩
  · exact Or.inl h2
  · exact Or.inr ⟨a, C, (hC a C).1 hc, hn⟩

/-- Edges from a node to itself do not change what is connected. -/
theorem connected_of_edge_or_eq (nodes : Finset Int) (e e' : Int → Int → Prop)
    (h1 : ∀ a b, e a b → e' a b) (h2 : ∀ a b, e' a b → e a b ∨ a = b) (a b : Int) :
    Connected nodes e' a b ↔ Connected nodes e a b := by
  constructor
  · intro h
    induction h with
    | refl => exact Relation.ReflTransGen.refl
    | @tail x y _ hxy ih =>
      obtain ⟨hx, hy, hj⟩ := hxy
      have : (e x y ∨ e y x) ∨ x = y := by
        rcases hj with h | h
        · exact (h2 x y h).elim (fun h => Or.inl (Or.inl h)) Or.inr
        · exact (h2 y x h).elim (fun h => Or.inl (Or.inr h)) (fun h => Or.inr h.symm)
      rcases this with h | h
      · exact Relation.ReflTransGen.tail ih ⟨hx, hy, h⟩
      · rw [← h]; exact ih
  · apply Relation.ReflTransGen.mono
    rintro x y ⟨hx, hy, h⟩
    exact ⟨hx, hy, h.imp (h1 x y) (h1 y x)⟩

theorem gcdEdge_append_left (nums : List Int) (v a b : Int) (h : GcdEdge nums a b) :
    GcdEdge (nums ++ [v]) a b := by
  obtain ⟨i, j, hij, hi, hj, hg⟩ := h
  refine ⟨i, j, hij, ?_, ?_, hg⟩
  · rw [List.getElem?_append_left (List.getElem?_eq_some_iff.1 hi).1]; exact hi
  · rw [List.getElem?_append_left (List.getElem?_eq_some_iff.1 hj).1]; exact hj

theorem getElem?_append_singleton (nums : List Int) (v a : Int) (i : Nat)
    (h : (nums ++ [v])[i]? = some a) : nums[i]? = some a ∨ (i = nums.length ∧ a = v) := by
  rcases Nat.lt_or_ge i nums.length with hlt | hge
  · rw [List.getElem?_append_left hlt] at h
    exact Or.inl h
  · rw [List.getElem?_append_right hge] at h
    right
    have hi := (List.getElem?_eq_some_iff.1 h).1
    simp only [List.length_singleton] at hi
    have hz : i - nums.length = 0 := by omega
    rw [hz] at h
    simp only [List.getElem?_cons_zero, Option.some.injEq] at h
    exact ⟨by omega, h.symm⟩

/-- Appending a copy of a value that occurs in the sequence adds at most the edge from
that value to itself. -/
theorem gcdEdge_append_dup (nums : List Int) (v a b : Int) (hv : v ∈ nums)
    (h : GcdEdge (nums ++ [v]) a b) :
    GcdEdge nums a b ∨ (a = v ∧ b = v ∧ 1 < Int.gcd v v) := by
  obtain ⟨p, hp⟩ := List.getElem?_of_mem hv
  obtain ⟨i, j, hij, hi, hj, hg⟩ := h
  rcases getElem?_append_singleton nums v a i hi with hi' | ⟨hil, rfl⟩
  · rcases getElem?_append_singleton nums v b j hj with hj' | ⟨hjl, rfl⟩
    · exact Or.inl ⟨i, j, hij, hi', hj', hg⟩
    · by_cases hip : i = p
      · subst hip
        rw [hp] at hi'
        cases hi'
        exact Or.inr ⟨rfl, rfl, hg⟩
      · exact Or.inl ⟨i, p, hip, hi', hp, hg⟩
  · rcases getElem?_append_singleton nums a b j hj with hj' | ⟨hjl, _⟩
    · by_cases hjp : j = p
      · subst hjp
        rw [hp] at hj'
        cases hj'
        exact Or.inr ⟨rfl, rfl, hg⟩
      · exact Or.inl ⟨p, j, fun e => hjp e.symm, hp, hj', hg⟩
    · exact absurd (hil.trans hjl.symm) hij

/-! ## The traversal of an arbitrary map -/

theorem get_mem_nodeList (adj : AdjList) (a b : Int) (h : b ∈ adj.get a) :
    b ∈ nodeList adj := by
  obtain ⟨e, he, _, hb⟩ := get_mem_entry adj a b h
  exact List.mem_append_right _ (List.mem_flatten.2 ⟨e.2, List.mem_map_of_mem Prod.snd he, hb⟩)

/-- On every map `recurse` returns when it is given the budget of `dfs`; `adj0` is the
map at the start of `dfs`, `adj` the map by now, with the same neighbour vectors. -/
theorem recurse_total (adj0 : AdjList) (node : Int) (adj : AdjList) (v : Visited)
    (fuel : Nat) (hg : ∀ x, adj.get x = adj0.get x) (hf : callBudget adj0 ≤ fuel) :
    ∃ r, recurse fuel node adj v = some r ∧ RecPost adj0.get adj v node r := by
  have hU : ∀ a ∈ insert node (nodeList adj0).toFinset, ∀ b ∈ adj0.get a,
      b ∈ insert node (nodeList adj0).toFinset := by
    intro a _ b hb
    exact Finset.mem_insert_of_mem (List.mem_toFinset.2 (get_mem_nodeList adj0 a b hb))
  refine recurse_spec adj0.get _ hU fuel node adj v hg (Finset.mem_insert_self _ _) ?_
  have hsub : insert node (nodeList adj0).toFinset \ insert node v.keys.toFinset ⊆
      (nodeList adj0).toFinset := by
    intro x hx
    simp only [Finset.mem_sdiff, Finset.mem_insert, not_or] at hx
    exact hx.1.resolve_left hx.2.1
  have h1 := Finset.card_le_card hsub
  have h2 := List.toFinset_card_le (nodeList adj0)
  simp only [callBudget] at hf
  omega

theorem dfsStep_total (adj0 : AdjList) (fuel : Nat) (hf : callBudget adj0 ≤ fuel)
    (st : DfsState) (hg : ∀ x, st.adj_list.get x = adj0.get x) (key : Int) :
    ∃ st', dfsStep fuel st key = some st' ∧ (∀ x, st'.adj_list.get x = adj0.get x) ∧
      (∀ x ∈ st.visited.keys, x ∈ st'.visited.keys) ∧ key ∈ st'.visited.keys := by
  by_cases hfind : st.visited.find key = none
  · obtain ⟨r, hr, p⟩ := recurse_total adj0 key st.adj_list st.visited fuel hg hf
    exact ⟨{ adj_list := r.1, visited := r.2,
             res := max ((r.2.size : Int) - st.prev) st.res, prev := (r.2.size : Int) },
      by simp only [dfsStep, hfind, if_true, hr, Option.map_some'], p.get_eq, p.mono, p.mem⟩
  · have hkv : key ∈ st.visited.keys := by
      by_contra h
      exact hfind ((UMap.find_eq_none_iff _ _).2 h)
    exact ⟨{ adj_list := st.adj_list, visited := st.visited,
             res := max ((st.visited.size : Int) - st.prev) st.res,
             prev := (st.visited.size : Int) },
      by simp only [dfsStep, hfind, if_false, Option.map_some'], hg, fun _ h => h, hkv⟩

theorem dfs_fold_total (adj0 : AdjList) (fuel : Nat) (hf : callBudget adj0 ≤ fuel)
    (keys : List Int) : ∀ (st : DfsState), (∀ x, st.adj_list.get x = adj0.get x) →
      ∃ st', keys.foldlM (dfsStep fuel) st = some st' ∧
        (∀ x, st'.adj_list.get x = adj0.get x) ∧
        (∀ x ∈ st.visited.keys, x ∈ st'.visited.keys) := by
  induction keys with
  | nil => intro st hg; exact ⟨st, rfl, hg, fun _ h => h⟩
  | cons key rest ih =>
    intro st hg
    obtain ⟨st1, h1, hg1, hm1, _⟩ := dfsStep_total adj0 fuel hf st hg key
    obtain ⟨st2, h2, hg2, hm2⟩ := ih st1 hg1
    refine ⟨st2, ?_, hg2, fun x hx => hm2 x (hm1 x hx)⟩
    rw [List.foldlM_cons, h1]
    exact h2

/-- The function `dfs` returns on every map. -/
theorem dfsLoop_total (adj : AdjList) : ∃ st, dfsLoop (callBudget adj) adj = some st := by
  obtain ⟨st, h, _⟩ := dfs_fold_total adj (callBudget adj) (le_refl _) adj.keys
    { adj_list := adj, visited := [], res := 0, prev := 0 } (fun _ => rfl)
  exact ⟨st, h⟩

/-- The connected component of a node exists as a finite set. -/
theorem exists_component (nodes : Finset Int) (edge : Int → Int → Prop) (a : Int)
    (ha : a ∈ nodes) : ∃ C : Finset Int, IsComponentOf nodes edge a C := by
  classical
  refine ⟨nodes.filter (fun x => Connected nodes edge a x), ha, fun x => ?_⟩
  rw [Finset.mem_filter]
  exact ⟨fun h => h.2, fun h => ⟨connected_mem nodes edge a x ha h, h⟩⟩

/-- What two consecutive states of the loop of `dfs` say about the growth that the
iteration for `key` measures. -/
theorem dfsInv_growth (adj : AdjList) (hsym : ∀ a b, b ∈ adj.get a → a ∈ adj.get b)
    (done : List Int) (key : Int) (st st' : DfsState) (inv : DfsInv adj done st)
    (inv' : DfsInv adj (done ++ [key]) st') :
    (key ∉ st.visited.keys → ∃ C : Finset Int,
      (∀ x, x ∈ C ↔ Relation.ReflTransGen (fun a b => b ∈ adj.get a) key x) ∧
      (st'.visited.size : Int) - st.prev = (C.card : Int)) ∧
    (key ∈ st.visited.keys → (st'.visited.size : Int) - st.prev = 0) := by
  have hvis' : ∀ x, x ∈ st'.visited.keys ↔ x ∈ st.visited.keys ∨
      Relation.ReflTransGen (fun a b => b ∈ adj.get a) key x := by
    intro x
    rw [inv'.vis, inv.vis]
    constructor
    · rintro ⟨k, hk, h⟩
      rcases List.mem_append.1 hk with h1 | h1
      · exact Or.inl ⟨k, h1, h⟩
      · rw [List.mem_singleton] at h1
        subst h1
        exact Or.inr h
    · rintro (⟨k, hk, h⟩ | h)
      · exact ⟨k, List.mem_append_left _ hk, h⟩
      · exact ⟨key, by simp, h⟩
  have hsub : st.visited.keys.toFinset ⊆ st'.visited.keys.toFinset := by
    intro x hx
    rw [List.mem_toFinset] at hx ⊢
    exact (hvis' x).2 (Or.inl hx)
  have hcard := Finset.card_sdiff_add_card_eq_card hsub
  have hl : ∀ m : Visited, m.keys.length = m.size := fun m => by
    simp [UMap.keys, UMap.size]
  rw [List.toFinset_card_of_nodup inv.nodup, List.toFinset_card_of_nodup inv'.nodup,
    hl, hl] at hcard
  constructor
  · intro hkv
    refine ⟨st'.visited.keys.toFinset \ st.visited.keys.toFinset, fun x => ?_, ?_⟩
    · rw [Finset.mem_sdiff, List.mem_toFinset, List.mem_toFinset, hvis']
      constructor
      · rintro ⟨h | h, h'⟩
        · exact absurd h h'
        · exact h
      · intro h
        refine ⟨Or.inr h, fun hxv => ?_⟩
        obtain ⟨k, hkd, hkx⟩ := (inv.vis x).1 hxv
        exact hkv ((inv.vis key).2 ⟨k, hkd, hkx.trans (reach_symm adj hsym h)⟩)
    · rw [inv.prev_eq]
      omega
  · intro hkv
    obtain ⟨k0, hk0, hk0key⟩ := (inv.vis key).1 hkv
    have heq : st'.visited.keys.toFinset \ st.visited.keys.toFinset = ∅ := by
      ext x
      simp only [Finset.mem_sdiff, List.mem_toFinset, Finset.not_mem_empty, iff_false,
        not_and, not_not, hvis']
      rintro (h | h)
      · exact h
      · exact (inv.vis x).2 ⟨k0, hk0, hk0key.trans h⟩
    rw [heq, Finset.card_empty] at hcard
    rw [inv.prev_eq]
    omega

/-! ## Enumeration order and input order -/

/-- Two enumerations of the same map (with distinct keys) hold the same vector for
every key. -/
theorem get_eq_of_perm (adj adj' : AdjList) (h : adj'.Perm adj) (hnd : adj.keys.Nodup)
    (k : Int) : adj'.get k = adj.get k := by
  have hnd' : adj'.keys.Nodup := ((h.map Prod.fst).nodup_iff).2 hnd
  by_cases hk : k ∈ adj.keys
  · obtain ⟨e, he, rfl⟩ := List.mem_map.1 hk
    rw [UMap.mem_of_find adj e.1 e.2 he hnd, UMap.mem_of_find adj' e.1 e.2 (h.mem_iff.2 he) hnd']
  · have hk' : k ∉ adj'.keys := fun hm => hk (((h.map Prod.fst).mem_iff).1 hm)
    rw [UMap.get_of_not_mem adj k hk, UMap.get_of_not_mem adj' k hk']

/-- The value of `dfs` depends only on the set of keys and on which values are in
which neighbour vector. -/
theorem dfs_congr (adj adj' : AdjList) (hs : adj.Symmetric) (hc : adj.Closed)
    (hk : ∀ k, k ∈ adj'.keys ↔ k ∈ adj.keys)
    (hn : ∀ k x, x ∈ adj'.get k ↔ x ∈ adj.get k) :
    dfs adj' = dfs adj ∧ ∃ n : Nat, dfs adj = some (n : Int) := by
  have hs' : adj'.Symmetric := fun a b h => (hn b a).2 (hs a b ((hn a b).1 h))
  have hc' : adj'.Closed := fun a b h => (hk b).2 (hc a b ((hn a b).1 h))
  obtain ⟨n, hdn, hln⟩ := dfs_spec adj hs hc
  obtain ⟨m, hdm, hlm⟩ := dfs_spec adj' hs' hc'
  have hkeys : adj'.keys.toFinset = adj.keys.toFinset := by
    ext k
    rw [List.mem_toFinset, List.mem_toFinset, hk]
  have hedge : adj'.Edge = adj.Edge := by
    funext a b
    exact propext (hn a b)
  rw [hkeys, hedge] at hlm
  have := isLargestComponentSize_unique _ _ m n hlm hln
  exact ⟨by rw [hdm, hdn, this], n, hdn⟩

theorem rowEdge_perm (x : Int) (l l' : List Int) (h : l'.Perm l) (a b : Int) :
    RowEdge x l' a b ↔ RowEdge x l a b := by
  constructor
  · rintro ⟨y, hy, hg⟩
    exact ⟨y, h.mem_iff.1 hy, hg⟩
  · rintro ⟨y, hy, hg⟩
    exact ⟨y, h.mem_iff.2 hy, hg⟩

/-- The edges of the specified graph do not depend on the order of the sequence. -/
theorem gcdEdge_perm (nums nums' : List Int) (h : nums'.Perm nums) (a b : Int) :
    GcdEdge nums' a b ↔ GcdEdge nums a b := by
  induction h with
  | nil => exact Iff.rfl
  | @cons x l' l hp ih =>
    rw [gcdEdge_cons, gcdEdge_cons, ih, rowEdge_perm x l l' hp]
  | swap x y l =>
    simp only [gcdEdge_cons, rowEdge_cons]
    rw [Int.gcd_comm x y]
    tauto
  | trans _ _ ih1 ih2 => exact ih1.trans ih2

theorem linkedSet_congr (nums nums' : List Int)
    (h : ∀ a b, GcdEdge nums' a b ↔ GcdEdge nums a b) :
    linkedSet nums' = linkedSet nums := by
  ext a
  rw [mem_linkedSet, mem_linkedSet]
  exact exists_congr (h a)

/-- The result is determined by the edges of the specified graph. -/
theorem largest_component_size_congr (nums nums' : List Int)
    (h : ∀ a b, GcdEdge nums' a b ↔ GcdEdge nums a b) :
    largest_component_size nums' nums'.length = largest_component_size nums nums.length := by
  obtain ⟨n, hn, hln⟩ := largest_component_size_linked nums
  obtain ⟨m, hm, hlm⟩ := largest_component_size_linked nums'
  have hedge : GcdEdge nums' = GcdEdge nums := by
    funext a b
    exact propext (h a b)
  rw [linkedSet_congr nums nums' h, hedge] at hlm
  rw [hn, hm, isLargestComponentSize_unique _ _ m n hlm hln]

/-- When every two nodes are connected, the largest component is the whole node set. -/
theorem isLargest_of_all_connected (nodes : Finset Int) (edge : Int → Int → Prop) (n : Nat)
    (h : IsLargestComponentSize nodes edge n)
    (hconn : ∀ a ∈ nodes, ∀ b ∈ nodes, Connected nodes edge a b) : n = nodes.card := by
  rcases h.2 with ⟨he, h0⟩ | ⟨a, C, hC, hCn⟩
  · rw [he, h0]; rfl
  · have hCv : C = nodes := by
      ext x
      rw [hC.2 x]
      exact ⟨connected_mem _ _ a x hC.1, fun hx => hconn a hC.1 x hx⟩
    rw [← hCn, hCv]

/-- A value that is its own neighbour occurs at two positions at least. -/
theorem two_le_count_of_gcdEdge_self (nums : List Int) (a : Int) (h : GcdEdge nums a a) :
    2 ≤ nums.count a := by
  induction nums with
  | nil => exact absurd h (gcdEdge_nil a a)
  | cons x rest ih =>
    rw [gcdEdge_cons] at h
    rcases h with ⟨y, hy, _, hxy⟩ | h
    · have hx : a = x ∧ a = y := by
        rcases hxy with ⟨h1, h2⟩ | ⟨h1, h2⟩
        · exact ⟨h1, h2⟩
        · exact ⟨h2, h1⟩
      rw [← hx.1, List.count_cons_self]
      have : 0 < rest.count a := List.count_pos_iff.2 (hx.2 ▸ hy)
      omega
    · exact le_trans (ih h) (List.count_le_count_cons _ _ _)

/-- Writing `true` through `visited[k]` keeps every entry other than one that maps `k`
to `false`. -/
theorem mem_subscript_true (m : Visited) (k : Int) (e : Int × Bool) (he : e ∈ m)
    (h : e.1 ≠ k ∨ e.2 = true) : e ∈ m.subscript k (fun _ => true) := by
  induction m with
  | nil => simp at he
  | cons e' rest ih =>
    obtain ⟨k', v'⟩ := e'
    by_cases hk : k' = k
    · simp only [UMap.subscript, hk, if_true]
      rcases List.mem_cons.1 he with h1 | h1
      · subst h1
        rcases h with h | h
        · exact absurd hk h
        · simp only at h
          rw [h, hk]
          exact List.mem_cons_self _ _
      · exact List.mem_cons_of_mem _ h1
    · simp only [UMap.subscript, hk, if_false]
      rcases List.mem_cons.1 he with h1 | h1
      · rw [h1]
        exact List.mem_cons_self _ _
      · exact List.mem_cons_of_mem _ (ih h1)

theorem recurse_loop_entries (fuel : Nat)
    (ih : ∀ (node : Int) (adj : AdjList) (v : Visited) (r : AdjList × Visited),
      recurse fuel node adj v = some r → ∀ e ∈ v, (e.1 ≠ node ∨ e.2 = true) → e ∈ r.2)
    (l : List Int) : ∀ (st r : AdjList × Visited),
      l.foldlM (fun (st : AdjList × Visited) (val : Int) =>
          if st.2.find val = none then recurse fuel val st.1 st.2 else some st) st = some r →
      ∀ e ∈ st.2, e ∈ r.2 := by
  induction l with
  | nil =>
    intro st r h e he
    simp only [List.foldlM_nil] at h
    cases h
    exact he
  | cons y l ihl =>
    intro st r h e he
    rw [List.foldlM_cons] at h
    by_cases hf : st.2.find y = none
    · simp only [hf, if_true] at h
      cases h1 : recurse fuel y st.1 st.2 with
      | none => rw [h1] at h; cases h
      | some r1 =>
        rw [h1] at h
        have hy : y ∉ st.2.keys := (UMap.find_eq_none_iff _ _).1 hf
        have hne : e.1 ≠ y := fun heq => hy (heq ▸ List.mem_map_of_mem Prod.fst he)
        exact ihl r1 r h e (ih y st.1 st.2 r1 h1 e he (Or.inl hne))
    · simp only [hf, if_false] at h
      exact ihl st r h e he

/-- Whenever `recurse` returns, every entry of the visited map is still there, except
that an entry mapping `node` itself to `false` now maps it to `true`. -/
theorem recurse_entries (fuel : Nat) : ∀ (node : Int) (adj : AdjList) (v : Visited)
    (r : AdjList × Visited), recurse fuel node adj v = some r →
    ∀ e ∈ v, (e.1 ≠ node ∨ e.2 = true) → e ∈ r.2 := by
  induction fuel with
  | zero => intro node adj v r h; simp [recurse] at h
  | succ fuel ih =>
    intro node adj v r h e he hcond
    simp only [recurse] at h
    exact recurse_loop_entries fuel ih _ _ r h e (mem_subscript_true v node e he hcond)

/-- Whatever order the hash table enumerates the map of `create_graph` in, `dfs`
returns the same value. -/
theorem dfs_perm_create_graph (nums : List Int) (adj' : AdjList)
    (h : adj'.Perm (create_graph [] nums)) : dfs adj' = dfs (create_graph [] nums) :=
  (dfs_congr (create_graph [] nums) adj' (symmetric_create_graph nums)
    (closed_create_graph nums) (fun _ => (h.map Prod.fst).mem_iff)
    (fun k x => by
      rw [get_eq_of_perm _ _ h (nodup_keys_create_graph nums [] List.nodup_nil) k])).1

theorem gcdEdge_of_mem_ne (nums : List Int) (a b : Int) (ha : a ∈ nums) (hb : b ∈ nums)
    (hab : a ≠ b) (hg : 1 < Int.gcd a b) : GcdEdge nums a b := by
  obtain ⟨i, hi⟩ := List.getElem?_of_mem ha
  obtain ⟨j, hj⟩ := List.getElem?_of_mem hb
  refine ⟨i, j, fun hij => hab ?_, hi, hj, hg⟩
  rw [hij, hj] at hi
  exact (Option.some.inj hi).symm

theorem reach_connected (adj : AdjList) (nodes : Finset Int)
    (hn : ∀ x ∈ nodeList adj, x ∈ nodes) (a b : Int)
    (h : Relation.ReflTransGen (fun a b => b ∈ adj.get a) a b) :
    Connected nodes adj.Edge a b := by
  refine Relation.ReflTransGen.mono ?_ h
  intro x y hxy
  exact ⟨hn x (List.mem_append_left _ (mem_keys_of_get adj x y hxy)),
    hn y (get_mem_nodeList adj x y hxy), Or.inl hxy⟩

/-- What one iteration of the loop of `dfs` did when it returns `st'`: it either ran
`recurse` on an unvisited key or left both maps alone. -/
theorem dfsStep_eq_some (fuel : Nat) (st st' : DfsState) (key : Int)
    (h : dfsStep fuel st key = some st') :
    (st.visited.find key = none ∧
      recurse fuel key st.adj_list st.visited = some (st'.adj_list, st'.visited)) ∨
    (st.visited.find key ≠ none ∧ st'.adj_list = st.adj_list ∧
      st'.visited = st.visited) := by
  by_cases hfind : st.visited.find key = none
  · left
    refine ⟨hfind, ?_⟩
    simp only [dfsStep, hfind, if_true] at h
    cases hr : recurse fuel key st.adj_list st.visited with
    | none => rw [hr] at h; cases h
    | some r =>
      rw [hr] at h
      simp only [Option.map_some', Option.some.injEq] at h
      rw [← h]
  · right
    simp only [dfsStep, hfind, if_false, Option.map_some', Option.some.injEq] at h
    rw [← h]
    exact ⟨hfind, rfl, rfl⟩

/-- No iteration of the loop of `dfs` removes or changes an entry of the visited map. -/
theorem dfsStep_entries (fuel : Nat) (st st' : DfsState) (key : Int)
    (h : dfsStep fuel st key = some st') : ∀ e ∈ st.visited, e ∈ st'.visited := by
  intro e he
  rcases dfsStep_eq_some fuel st st' key h with ⟨hfind, hr⟩ | ⟨_, _, hv⟩
  · have hk : key ∉ st.visited.keys := (UMap.find_eq_none_iff _ _).1 hfind
    have hne : e.1 ≠ key := fun heq => hk (heq ▸ List.mem_map_of_mem Prod.fst he)
    exact recurse_entries fuel key st.adj_list st.visited _ hr e he (Or.inl hne)
  · rw [hv]; exact he

/-! ## The claims -/

/-- C1 (counterexample): for the one-element sequence `[1]` of non-negative integers
`largest_component_size` returns 0, and 0 is not the size of the largest connected
component of the graph on the distinct values of the sequence (the component of the
node 1 has one node). -/
theorem c1_isolated_value_counterexample :
    largest_component_size [1] 1 = some 0 ∧
      ¬ IsLargestComponentSize (valueSet [1]) (GcdEdge [1]) 0 := by
  refine ⟨by decide, fun h => ?_⟩
  have hC : IsComponentOf (valueSet [1]) (GcdEdge [1]) 1 {1} := by
    refine ⟨by decide, fun x => ?_⟩
    rw [Finset.mem_singleton]
    constructor
    · rintro rfl
      exact Relation.ReflTransGen.refl
    · apply connected_of_not_joined
      rintro y ⟨_, _, h | h⟩ <;>
        exact not_gcdEdge_of_pairwise [1] (by decide) _ _ h
  have := h.1 1 {1} hC
  simp at this

/-- C1 (amended): for every finite input sequence of integers, `largest_component_size`
returns the number of nodes of the largest connected component of the graph whose
nodes are the values that have gcd > 1 with the value at some other position, two
nodes being joined iff their values occur at two different positions with gcd > 1; for
the empty sequence it returns 0. -/
theorem c1_largest_component_of_linked_values (nums : List Int) :
    (∃ n : Nat, largest_component_size nums nums.length = some (n : Int) ∧
      IsLargestComponentSize (linkedSet nums) (GcdEdge nums) n) ∧
    largest_component_size [] 0 = some 0 :=
  ⟨largest_component_size_linked nums, rfl⟩

/-- C2 (counterexample): for the one-element sequence `[5]` the result is 0, not 1. -/
theorem c2_single_element_counterexample :
    largest_component_size [5] 1 = some 0 ∧ largest_component_size [5] 1 ≠ some 1 := by
  decide

/-- C2 (amended): for every input sequence with exactly one element `v`,
`largest_component_size` returns 0: there is no pair of positions, so the adjacency
map has no key. -/
theorem c2_single_element_returns_zero (v : Int) :
    largest_component_size [v] 1 = some 0 := rfl

/-- C3 (counterexample): `[2, 3, 5, 7]` is non-empty, no two of its positions have
gcd > 1, and the result is 0, not 1. -/
theorem c3_coprime_counterexample :
    ([2, 3, 5, 7] : List Int) ≠ [] ∧ (∀ a b, ¬ GcdEdge [2, 3, 5, 7] a b) ∧
      largest_component_size [2, 3, 5, 7] 4 = some 0 ∧
      largest_component_size [2, 3, 5, 7] 4 ≠ some 1 :=
  ⟨by decide, not_gcdEdge_of_pairwise _ (by decide), by decide, by decide⟩

/-- C3 (amended): for every non-empty input sequence in which no two elements at
different positions have gcd > 1, `largest_component_size` returns 0. -/
theorem c3_coprime_returns_zero (nums : List Int) (_hne : nums ≠ [])
    (h : ∀ a b, ¬ GcdEdge nums a b) :
    largest_component_size nums nums.length = some 0 := by
  rw [largest_component_size_eq, create_graph_eq_nil nums h]
  rfl

/-- C3 (witness): the amended statement at `[2, 3, 5, 7]`. -/
theorem c3_coprime_returns_zero_witness :
    largest_component_size [2, 3, 5, 7] ([2, 3, 5, 7] : List Int).length = some 0 :=
  c3_coprime_returns_zero [2, 3, 5, 7] (by decide) (not_gcdEdge_of_pairwise _ (by decide))

/-- C4: for every input sequence in which positions `i < j` hold values `a`, `b` with
gcd > 1, `largest_component_size` returns the size of the largest connected component
of the gcd graph on all distinct input values, isolated values included. -/
theorem c4_largest_component_with_edge (nums : List Int) (i j : Nat) (a b : Int)
    (hij : i < j) (hi : nums[i]? = some a) (hj : nums[j]? = some b)
    (hg : 1 < Int.gcd a b) :
    ∃ n : Nat, largest_component_size nums nums.length = some (n : Int) ∧
      IsLargestComponentSize (valueSet nums) (GcdEdge nums) n := by
  obtain ⟨n, hn, hl⟩ := largest_component_size_linked nums
  exact ⟨n, hn, isLargest_valueSet nums n hl ⟨a, b, gcdEdge_of_lt nums i j a b hij hi hj hg⟩⟩

/-- C4 (witness): `[2, 3, 4]`, where positions 0 and 2 hold 2 and 4; the result is 2. -/
theorem c4_largest_component_with_edge_witness :
    largest_component_size [2, 3, 4] 3 = some 2 ∧
    ∃ n : Nat, largest_component_size [2, 3, 4] ([2, 3, 4] : List Int).length = some (n : Int) ∧
      IsLargestComponentSize (valueSet [2, 3, 4]) (GcdEdge [2, 3, 4]) n :=
  ⟨by decide, c4_largest_component_with_edge [2, 3, 4] 0 2 2 4 (by decide) rfl rfl (by decide)⟩

/-- C5: for every input sequence of at least two positive integers that all have a
common divisor `d > 1`, the whole input forms one component and
`largest_component_size` returns the number of distinct values of the sequence. -/
theorem c5_common_divisor_single_component (nums : List Int) (d : Int)
    (hlen : 2 ≤ nums.length) (hpos : ∀ x ∈ nums, 0 < x) (hd : 1 < d)
    (hdiv : ∀ x ∈ nums, d ∣ x) :
    largest_component_size nums nums.length = some ((valueSet nums).card : Int) ∧
      ∀ a ∈ nums, ∀ b ∈ nums, Connected (valueSet nums) (GcdEdge nums) a b := by
  have hgcd : ∀ a ∈ nums, ∀ b ∈ nums, 1 < Int.gcd a b := by
    intro a ha b hb
    have h1 : d ∣ (Int.gcd a b : Int) := Int.dvd_gcd (hdiv a ha) (hdiv b hb)
    have h0 : Int.gcd a b ≠ 0 := by
      intro h0
      have h2 := (Int.gcd_eq_zero_iff.1 h0).1
      have h3 := hpos a ha
      omega
    have h2 : 0 < (Int.gcd a b : Int) := by omega
    have h3 := Int.le_of_dvd h2 h1
    omega
  have hconn : ∀ a ∈ nums, ∀ b ∈ nums, Connected (valueSet nums) (GcdEdge nums) a b := by
    intro a ha b hb
    obtain ⟨i, hi⟩ := List.getElem?_of_mem ha
    obtain ⟨j, hj⟩ := List.getElem?_of_mem hb
    by_cases hij : i = j
    · subst hij
      rw [hi] at hj
      cases hj
      exact Relation.ReflTransGen.refl
    · exact Relation.ReflTransGen.single ⟨List.mem_toFinset.2 ha, List.mem_toFinset.2 hb,
        Or.inl ⟨i, j, hij, hi, hj, hgcd a ha b hb⟩⟩
  refine ⟨?_, hconn⟩
  have hl0 : 0 < nums.length := by omega
  have hl1 : 1 < nums.length := by omega
  have h0 : nums[0]? = some nums[0] := List.getElem?_eq_getElem hl0
  have h1 : nums[1]? = some nums[1] := List.getElem?_eq_getElem hl1
  have hm0 := List.getElem?_mem h0
  obtain ⟨n, hn, hl⟩ := largest_component_size_linked nums
  have hl' := isLargest_valueSet nums n hl
    ⟨_, _, 0, 1, by decide, h0, h1, hgcd _ hm0 _ (List.getElem?_mem h1)⟩
  rw [hn]
  rcases hl'.2 with ⟨he, _⟩ | ⟨a, C, hC, hCn⟩
  · have : nums[0] ∈ valueSet nums := List.mem_toFinset.2 hm0
    rw [he] at this
    simp at this
  · have hCv : C = valueSet nums := by
      ext x
      rw [hC.2 x]
      exact ⟨connected_mem _ _ a x hC.1,
        fun hx => hconn a (List.mem_toFinset.1 hC.1) x (List.mem_toFinset.1 hx)⟩
    rw [← hCv, hCn]

/-- C5 (witness): `[2, 4, 6, 8]` with `d = 2`; the result is 4. -/
theorem c5_common_divisor_single_component_witness :
    largest_component_size [2, 4, 6, 8] 4 = some 4 ∧
    (largest_component_size [2, 4, 6, 8] ([2, 4, 6, 8] : List Int).length =
        some ((valueSet [2, 4, 6, 8]).card : Int) ∧
      ∀ a ∈ ([2, 4, 6, 8] : List Int), ∀ b ∈ ([2, 4, 6, 8] : List Int),
        Connected (valueSet [2, 4, 6, 8]) (GcdEdge [2, 4, 6, 8]) a b) :=
  ⟨by decide, c5_common_divisor_single_component [2, 4, 6, 8] 2 (by decide) (by decide)
    (by decide) (by decide)⟩

/-- C6: for the empty input sequence (length 0, whatever the array behind it),
`largest_component_size` returns 0, and `largest_component_size_all_integers 0`
returns 0. -/
theorem c6_empty_input_returns_zero :
    largest_component_size [] 0 = some 0 ∧
    (∀ array : List Int, largest_component_size array 0 = some 0) ∧
    largest_component_size_all_integers 0 = some 0 :=
  ⟨rfl, fun _ => rfl, rfl⟩

/-- C7: for every length `n`, `largest_component_size_all_integers n` returns what
`largest_component_size` returns for the explicit sequence `[1, 2, ..., n]` with
length `n`; in particular for `n = 6`. -/
theorem c7_all_integers_agrees (n : Nat) :
    largest_component_size_all_integers n = largest_component_size (oneTo n) n ∧
    largest_component_size_all_integers 6 = largest_component_size [1, 2, 3, 4, 5, 6] 6 := by
  refine ⟨?_, by decide⟩
  have h1 : iota n 1 = oneTo n := iota_eq n 1
  have h2 : (oneTo n).take n = oneTo n := by
    apply List.take_of_length_le
    simp [oneTo]
  simp only [largest_component_size_all_integers, _largest_component_size_all_integers,
    largest_component_size, _largest_component_size, h1, h2]

/-- C8: for every adjacency map that is symmetric and closed, `dfs` returns the number
of keys in the largest connected component of the graph on the keys of the map; the
result is 0 when the map has no keys, and a key with an empty neighbour vector is a
component of its own, of size 1. -/
theorem c8_dfs_largest_component (adj : AdjList) (hs : adj.Symmetric) (hc : adj.Closed) :
    ∃ n : Nat, dfs adj = some (n : Int) ∧
      IsLargestComponentSize adj.keys.toFinset adj.Edge n ∧
      (adj.keys = [] → n = 0) ∧
      (∀ k ∈ adj.keys, adj.get k = [] →
        IsComponentOf adj.keys.toFinset adj.Edge k {k} ∧ 1 ≤ n) := by
  obtain ⟨n, hn, hl⟩ := dfs_spec adj hs hc
  refine ⟨n, hn, hl, ?_, ?_⟩
  · intro hk
    rcases hl.2 with ⟨_, h0⟩ | ⟨a, C, hC, _⟩
    · exact h0
    · have := hC.1
      rw [hk] at this
      simp at this
  · intro k hk hget
    have hC : IsComponentOf adj.keys.toFinset adj.Edge k {k} := by
      refine ⟨List.mem_toFinset.2 hk, fun x => ?_⟩
      rw [Finset.mem_singleton]
      constructor
      · rintro rfl
        exact Relation.ReflTransGen.refl
      · apply connected_of_not_joined
        rintro y ⟨_, _, h | h⟩
        · have h' : y ∈ adj.get k := h
          rw [hget] at h'
          simp at h'
        · have h' : y ∈ adj.get k := hs y k h
          rw [hget] at h'
          simp at h'
    refine ⟨hC, ?_⟩
    have := hl.1 k {k} hC
    simpa using this

/-- C8 (witness): the map with the edge 2 - 4 and the lone key 3; the result is 2. -/
theorem c8_dfs_largest_component_witness :
    dfs sampleMap = some 2 ∧
    ∃ n : Nat, dfs sampleMap = some (n : Int) ∧
      IsLargestComponentSize sampleMap.keys.toFinset sampleMap.Edge n ∧
      (sampleMap.keys = [] → n = 0) ∧
      (∀ k ∈ sampleMap.keys, sampleMap.get k = [] →
        IsComponentOf sampleMap.keys.toFinset sampleMap.Edge k {k} ∧ 1 ≤ n) :=
  ⟨by decide, c8_dfs_largest_component sampleMap
    (symmetric_of_entries _ (by decide)) (closed_of_entries _ (by decide))⟩

/-- C9: for every input sequence and every pair of positions `i < j` holding values
`a`, `b` with gcd > 1, the map that `create_graph` builds from the empty map has `b`
in the neighbour vector of `a` and `a` in the neighbour vector of `b`; and the map is
symmetric. -/
theorem c9_create_graph_inserts_both_edges (nums : List Int) (i j : Nat) (a b : Int)
    (hij : i < j) (hi : nums[i]? = some a) (hj : nums[j]? = some b)
    (hg : 1 < Int.gcd a b) :
    b ∈ (create_graph [] nums).get a ∧ a ∈ (create_graph [] nums).get b ∧
      ∀ x y, y ∈ (create_graph [] nums).get x ↔ x ∈ (create_graph [] nums).get y := by
  have h := gcdEdge_of_lt nums i j a b hij hi hj hg
  refine ⟨(edge_create_graph nums a b).2 h,
    (edge_create_graph nums b a).2 (gcdEdge_symm nums a b h), fun x y => ?_⟩
  exact ⟨symmetric_create_graph nums x y, symmetric_create_graph nums y x⟩

/-- C9 (witness): `[2, 3, 4]` with the positions 0 and 2. -/
theorem c9_create_graph_inserts_both_edges_witness :
    create_graph [] [2, 3, 4] = [(2, [4]), (4, [2])] ∧
    ((4 : Int) ∈ (create_graph [] [2, 3, 4]).get 2 ∧
      (2 : Int) ∈ (create_graph [] [2, 3, 4]).get 4 ∧
      ∀ x y, y ∈ (create_graph [] [2, 3, 4]).get x ↔
        x ∈ (create_graph [] [2, 3, 4]).get y) :=
  ⟨by decide, c9_create_graph_inserts_both_edges [2, 3, 4] 0 2 2 4 (by decide) rfl rfl
    (by decide)⟩

/-- C10 (counterexample): 2 occurs in `[2]`, the result for `[2]` is 0, and with one
more copy of 2 appended the result is 1. -/
theorem c10_duplicate_counterexample :
    (2 : Int) ∈ ([2] : List Int) ∧ largest_component_size [2] 1 = some 0 ∧
      largest_component_size ([2] ++ [2]) 2 = some 1 ∧
      largest_component_size ([2] ++ [2]) 2 ≠ largest_component_size [2] 1 := by
  decide

/-- C10 (amended): for every input sequence `nums` and every value `v` occurring in it
that already has gcd > 1 with the value at some other position, or whose absolute
value is at most 1, `largest_component_size` of `nums` with one more copy of `v`
appended equals `largest_component_size` of `nums`. -/
theorem c10_duplicate_of_linked_value (nums : List Int) (v : Int) (hv : v ∈ nums)
    (h : v ∈ linkedSet nums ∨ v.natAbs ≤ 1) :
    largest_component_size (nums ++ [v]) (nums ++ [v]).length =
      largest_component_size nums nums.length := by
  have hstep : ∀ a b, GcdEdge (nums ++ [v]) a b →
      GcdEdge nums a b ∨ (a = b ∧ a ∈ linkedSet nums) := by
    intro a b hab
    rcases gcdEdge_append_dup nums v a b hv hab with h1 | ⟨h1, h2, hg⟩
    · exact Or.inl h1
    · rcases h with h | h
      · exact Or.inr ⟨h1.trans h2.symm, h1 ▸ h⟩
      · rw [Int.gcd_self] at hg
        omega
  have hL : linkedSet (nums ++ [v]) = linkedSet nums := by
    ext a
    rw [mem_linkedSet, mem_linkedSet]
    constructor
    · rintro ⟨b, hb⟩
      rcases hstep a b hb with h1 | ⟨_, h1⟩
      · exact ⟨b, h1⟩
      · exact (mem_linkedSet nums a).1 h1
    · rintro ⟨b, hb⟩
      exact ⟨b, gcdEdge_append_left nums v a b hb⟩
  obtain ⟨n, hn, hln⟩ := largest_component_size_linked (nums ++ [v])
  obtain ⟨m, hm, hlm⟩ := largest_component_size_linked nums
  rw [hL] at hln
  have hln' := isLargest_congr (linkedSet nums) (GcdEdge (nums ++ [v])) (GcdEdge nums) n
    (connected_of_edge_or_eq (linkedSet nums) (GcdEdge nums) (GcdEdge (nums ++ [v]))
      (gcdEdge_append_left nums v) (fun a b hab => (hstep a b hab).imp id And.left)) hln
  rw [hn, hm, isLargestComponentSize_unique _ _ n m hln' hlm]

/-- C10 (witness): `[2, 4]` with one more 2, a value that is linked to 4 already. -/
theorem c10_duplicate_of_linked_value_witness :
    largest_component_size ([2, 4] ++ [2]) ([2, 4] ++ [2] : List Int).length =
      largest_component_size [2, 4] ([2, 4] : List Int).length :=
  c10_duplicate_of_linked_value [2, 4] 2 (by decide) (Or.inl (by decide))

/-- C11: for every symmetric, closed adjacency map, another enumeration order of its
keys and other orders of its neighbour vectors give the same value of `dfs`, and that
value exists. -/
theorem c11_dfs_enumeration_order_independent (adj adj' : AdjList) (hs : adj.Symmetric)
    (hc : adj.Closed) (hk : adj'.keys.Perm adj.keys)
    (hn : ∀ k, (adj'.get k).Perm (adj.get k)) :
    dfs adj' = dfs adj ∧ ∃ n : Nat, dfs adj = some (n : Int) :=
  dfs_congr adj adj' hs hc (fun _ => hk.mem_iff) (fun k _ => (hn k).mem_iff)

/-- C11 (witness): the triangle on 2, 4, 6 enumerated in two orders; both give 3. -/
theorem c11_dfs_enumeration_order_independent_witness :
    dfs triangleMapReordered = some 3 ∧ dfs triangleMap = some 3 ∧
    (dfs triangleMapReordered = dfs triangleMap ∧
      ∃ n : Nat, dfs triangleMap = some (n : Int)) :=
  ⟨by decide, by decide,
    c11_dfs_enumeration_order_independent triangleMap triangleMapReordered
      (symmetric_of_entries _ (by decide)) (closed_of_entries _ (by decide)) (by decide)
      (fun k => by
        by_cases h2 : k = 2
        · subst h2; decide
        · by_cases h4 : k = 4
          · subst h4; decide
          · by_cases h6 : k = 6
            · subst h6; decide
            · have e1 : triangleMapReordered.get k = [] := UMap.get_of_not_mem _ k (by
                simp only [triangleMapReordered, UMap.keys, List.map_cons, List.map_nil,
                  List.mem_cons, List.mem_nil_iff, or_false, not_or]
                exact ⟨h6, h2, h4⟩)
              have e2 : triangleMap.get k = [] := UMap.get_of_not_mem _ k (by
                simp only [triangleMap, UMap.keys, List.map_cons, List.map_nil,
                  List.mem_cons, List.mem_nil_iff, or_false, not_or]
                exact ⟨h2, h4, h6⟩)
              rw [e1, e2])⟩

/-- C12: both entry points are functions of their arguments alone.  Each call builds
its map from the empty map and `dfs` starts from the empty visited map; whatever order
the hash table enumerates that map in during a call, the call returns the same value,
which depends only on the first `length` elements of the array, or on `length`. -/
theorem c12_entry_points_deterministic (array : List Int) (length : Nat) :
    (largest_component_size array length = dfs (create_graph [] (array.take length)) ∧
      dfsLoop (callBudget (create_graph [] (array.take length)))
          (create_graph [] (array.take length)) =
        (create_graph [] (array.take length)).keys.foldlM
          (dfsStep (callBudget (create_graph [] (array.take length))))
          (dfsInit (create_graph [] (array.take length)))) ∧
    (∀ adj1 adj2 : AdjList, adj1.Perm (create_graph [] (array.take length)) →
      adj2.Perm (create_graph [] (array.take length)) →
      dfs adj1 = dfs adj2 ∧ dfs adj1 = largest_component_size array length) ∧
    (∃ n : Nat, largest_component_size array length = some (n : Int)) ∧
    (∀ array' : List Int, array'.take length = array.take length →
      largest_component_size array' length = largest_component_size array length) ∧
    (∀ adj1 adj2 : AdjList, adj1.Perm (create_graph [] (iota length 1)) →
      adj2.Perm (create_graph [] (iota length 1)) →
      dfs adj1 = dfs adj2 ∧ dfs adj1 = largest_component_size_all_integers length) ∧
    (∃ m : Nat, largest_component_size_all_integers length = some (m : Int)) := by
  refine ⟨⟨rfl, rfl⟩, ?_, ?_, ?_, ?_, ?_⟩
  · intro adj1 adj2 h1 h2
    rw [dfs_perm_create_graph _ adj1 h1, dfs_perm_create_graph _ adj2 h2]
    exact ⟨rfl, rfl⟩
  · obtain ⟨n, hn, _⟩ := dfs_spec _ (symmetric_create_graph (array.take length))
      (closed_create_graph (array.take length))
    exact ⟨n, hn⟩
  · intro array' h
    simp only [largest_component_size, _largest_component_size, h]
  · intro adj1 adj2 h1 h2
    rw [dfs_perm_create_graph _ adj1 h1, dfs_perm_create_graph _ adj2 h2]
    exact ⟨rfl, rfl⟩
  · obtain ⟨n, hn, _⟩ := dfs_spec _ (symmetric_create_graph (iota length 1))
      (closed_create_graph (iota length 1))
    exact ⟨n, hn⟩

/-- C13: the map that `create_graph` builds from the empty map holds only genuine
edges: whenever `b` is in the neighbour vector of `a`, two different positions hold
`a` and `b` and their gcd exceeds 1; a value that occurs once is not its own
neighbour; and every key has a non-empty neighbour vector. -/
theorem c13_create_graph_only_genuine_edges (nums : List Int) :
    (∀ a b, b ∈ (create_graph [] nums).get a →
      ∃ i j : Nat, i ≠ j ∧ nums[i]? = some a ∧ nums[j]? = some b ∧ 1 < Int.gcd a b) ∧
    (∀ a, nums.count a = 1 → a ∉ (create_graph [] nums).get a) ∧
    (∀ k ∈ (create_graph [] nums).keys, (create_graph [] nums).get k ≠ []) := by
  refine ⟨fun a b h => (edge_create_graph nums a b).1 h, ?_, ?_⟩
  · intro a hc h
    have := two_le_count_of_gcdEdge_self nums a ((edge_create_graph nums a a).1 h)
    omega
  · intro k hk hnil
    obtain ⟨b, hb⟩ := (keys_create_graph nums k).1 hk
    have hmem : b ∈ (create_graph [] nums).get k := (edge_create_graph nums k b).2 hb
    rw [hnil] at hmem
    simp at hmem

/-- C14: in `dfs` on a symmetric, closed map, at the iteration for any key `key` (the
keys `done` enumerated before it), the visited set is a union of whole connected
components and `prev` is its size; if `key` is unvisited, `recurse` returns and the
growth of the visited set is the size of the connected component of `key`; if `key`
is visited already, the measured growth is 0. -/
theorem c14_dfs_loop_invariant (adj : AdjList) (hs : adj.Symmetric) (hc : adj.Closed)
    (done rest : List Int) (key : Int) (hsplit : adj.keys = done ++ key :: rest) :
    ∃ st st' : DfsState,
      done.foldlM (dfsStep (callBudget adj)) (dfsInit adj) = some st ∧
      dfsStep (callBudget adj) st key = some st' ∧
      st.prev = (st.visited.size : Int) ∧
      (∀ x ∈ st.visited.keys, ∀ y, Connected adj.keys.toFinset adj.Edge x y →
        y ∈ st.visited.keys) ∧
      (key ∉ st.visited.keys → ∃ C : Finset Int,
        IsComponentOf adj.keys.toFinset adj.Edge key C ∧
        recurse (callBudget adj) key st.adj_list st.visited =
          some (st'.adj_list, st'.visited) ∧
        (st'.visited.size : Int) - st.prev = (C.card : Int)) ∧
      (key ∈ st.visited.keys → (st'.visited.size : Int) - st.prev = 0) := by
  have hsym : ∀ a b, b ∈ adj.get a → a ∈ adj.get b := hs
  have hcl : ∀ a ∈ adj.keys, ∀ b ∈ adj.get a, b ∈ adj.keys := fun a _ b h => hc a b h
  have hf := keys_length_lt_callBudget adj
  have hkey : key ∈ adj.keys := by rw [hsplit]; simp
  have hdone : ∀ k ∈ done, k ∈ adj.keys := by
    intro k hk; rw [hsplit]; exact List.mem_append_left _ hk
  have inv0 : DfsInv adj [] (dfsInit adj) :=
    ⟨rfl, List.nodup_nil, rfl, by simp [dfsInit, UMap.keys], 0, rfl, by simp,
      Or.inl ⟨rfl, rfl⟩⟩
  obtain ⟨st, hst, inv⟩ := dfs_fold_spec adj hsym hcl _ hf done [] _ hdone inv0
  rw [List.nil_append] at inv
  obtain ⟨st', hst', inv'⟩ := dfsStep_spec adj hsym hcl _ hf done st inv key hkey
  obtain ⟨hgrow, hzero⟩ := dfsInv_growth adj hsym done key st st' inv inv'
  refine ⟨st, st', hst, hst', inv.prev_eq, ?_, ?_, hzero⟩
  · intro x hx y hxy
    obtain ⟨k, hk, hkx⟩ := (inv.vis x).1 hx
    exact (inv.vis y).2 ⟨k, hk, hkx.trans ((connected_iff_reach adj hs hc x y).1 hxy)⟩
  · intro hkv
    obtain ⟨C, hC, hcard⟩ := hgrow hkv
    refine ⟨C, ⟨List.mem_toFinset.2 hkey,
      fun x => (hC x).trans (connected_iff_reach adj hs hc key x).symm⟩, ?_, hcard⟩
    have hfind : st.visited.find key = none := (UMap.find_eq_none_iff _ _).2 hkv
    simp only [dfsStep, hfind, if_true] at hst'
    cases hr : recurse (callBudget adj) key st.adj_list st.visited with
    | none => rw [hr] at hst'; cases hst'
    | some r =>
      rw [hr] at hst'
      simp only [Option.map_some', Option.some.injEq] at hst'
      rw [← hst']

/-- C14 (witness): `sampleMap` at its second key 4, which the traversal from 2 has
visited already. -/
theorem c14_dfs_loop_invariant_witness :
    ∃ st st' : DfsState,
      [2].foldlM (dfsStep (callBudget sampleMap)) (dfsInit sampleMap) = some st ∧
      dfsStep (callBudget sampleMap) st 4 = some st' ∧
      st.prev = (st.visited.size : Int) ∧
      (∀ x ∈ st.visited.keys, ∀ y,
        Connected sampleMap.keys.toFinset sampleMap.Edge x y → y ∈ st.visited.keys) ∧
      (4 ∉ st.visited.keys → ∃ C : Finset Int,
        IsComponentOf sampleMap.keys.toFinset sampleMap.Edge 4 C ∧
        recurse (callBudget sampleMap) 4 st.adj_list st.visited =
          some (st'.adj_list, st'.visited) ∧
        (st'.visited.size : Int) - st.prev = (C.card : Int)) ∧
      (4 ∈ st.visited.keys → (st'.visited.size : Int) - st.prev = 0) :=
  c14_dfs_loop_invariant sampleMap (symmetric_of_entries _ (by decide))
    (closed_of_entries _ (by decide)) [2] [3] 4 (by decide)

/-- C15: the visited set only grows.  For every node, adjacency map and visited map,
`recurse` (with the budget of `dfs` or more) returns a visited map that contains
`node` and every key that was in it before, with every entry unchanged (only an entry
mapping `node` itself to `false` is overwritten with `true`); and at every iteration
of `dfs`, which always runs to its end, every entry of the visited map stays. -/
theorem c15_visited_only_grows (node : Int) (adj : AdjList) (v : Visited) (fuel : Nat)
    (hf : callBudget adj ≤ fuel) :
    (∃ r, recurse fuel node adj v = some r ∧ node ∈ r.2.keys ∧
      (∀ x ∈ v.keys, x ∈ r.2.keys) ∧
      (∀ e ∈ v, (e.1 ≠ node ∨ e.2 = true) → e ∈ r.2)) ∧
    (∀ done rest key, adj.keys = done ++ key :: rest →
      ∃ st st' : DfsState,
        done.foldlM (dfsStep (callBudget adj)) (dfsInit adj) = some st ∧
        dfsStep (callBudget adj) st key = some st' ∧
        (∀ x ∈ st.visited.keys, x ∈ st'.visited.keys) ∧
        (∀ e ∈ st.visited, e ∈ st'.visited)) ∧
    (∃ st, dfsLoop (callBudget adj) adj = some st) := by
  refine ⟨?_, ?_, dfsLoop_total adj⟩
  · obtain ⟨r, hr, p⟩ := recurse_total adj node adj v fuel (fun _ => rfl) hf
    exact ⟨r, hr, p.mem, p.mono, recurse_entries fuel node adj v r hr⟩
  · intro done rest key _
    obtain ⟨st, hst, hg, _⟩ := dfs_fold_total adj (callBudget adj) (le_refl _) done
      (dfsInit adj) (fun _ => rfl)
    obtain ⟨st', hst', _, hm, _⟩ := dfsStep_total adj (callBudget adj) (le_refl _) st hg key
    exact ⟨st, st', hst, hst', hm, dfsStep_entries _ st st' key hst'⟩

/-- C15 (witness): `recurse` from the key 2 of `sampleMap` with nothing visited. -/
theorem c15_visited_only_grows_witness :
    recurse (callBudget sampleMap) 2 sampleMap [] = some (sampleMap, [(2, true), (4, true)]) ∧
    ((∃ r, recurse (callBudget sampleMap) 2 sampleMap [] = some r ∧ 2 ∈ r.2.keys ∧
      (∀ x ∈ UMap.keys ([] : Visited), x ∈ r.2.keys) ∧
      (∀ e ∈ ([] : Visited), (e.1 ≠ 2 ∨ e.2 = true) → e ∈ r.2)) ∧
    (∀ done rest key, sampleMap.keys = done ++ key :: rest →
      ∃ st st' : DfsState,
        done.foldlM (dfsStep (callBudget sampleMap)) (dfsInit sampleMap) = some st ∧
        dfsStep (callBudget sampleMap) st key = some st' ∧
        (∀ x ∈ st.visited.keys, x ∈ st'.visited.keys) ∧
        (∀ e ∈ st.visited, e ∈ st'.visited)) ∧
    (∃ st, dfsLoop (callBudget sampleMap) sampleMap = some st)) :=
  ⟨by decide, c15_visited_only_grows 2 sampleMap [] (callBudget sampleMap) (by decide)⟩

/-- C16: `recurse` terminates on every adjacency map and visited map, with a nesting
depth of at most the number of nodes of the connected component of the start node:
a budget of that many nested calls suffices.  The nodes it newly visits lie in that
component, and a call on an unvisited node strictly lowers the number of unvisited
nodes of the component. -/
theorem c16_recurse_terminates (node : Int) (adj : AdjList) (v : Visited) :
    ∃ C : Finset Int,
      IsComponentOf (insert node (nodeList adj).toFinset) adj.Edge node C ∧
      ∀ fuel, C.card ≤ fuel → ∃ r, recurse fuel node adj v = some r ∧ node ∈ r.2.keys ∧
        (∀ x ∈ r.2.keys, x ∉ v.keys → x ∈ C) ∧
        (node ∉ v.keys →
          (C \ r.2.keys.toFinset).card < (C \ v.keys.toFinset).card) := by
  obtain ⟨C, hC⟩ := exists_component (insert node (nodeList adj).toFinset) adj.Edge node
    (Finset.mem_insert_self _ _)
  have hnode : node ∈ C := mem_of_isComponentOf _ _ _ _ hC
  have hnl : ∀ x ∈ nodeList adj, x ∈ insert node (nodeList adj).toFinset :=
    fun x hx => Finset.mem_insert_of_mem (List.mem_toFinset.2 hx)
  have hU : ∀ a ∈ C, ∀ b ∈ adj.get a, b ∈ C := by
    intro a ha b hb
    have hca := (hC.2 a).1 ha
    exact (hC.2 b).2 (Relation.ReflTransGen.tail hca
      ⟨connected_mem _ _ node a hC.1 hca, hnl b (get_mem_nodeList adj a b hb), Or.inl hb⟩)
  refine ⟨C, hC, fun fuel hfuel => ?_⟩
  have hlt : (C \ insert node v.keys.toFinset).card < C.card := by
    apply Finset.card_lt_card
    rw [Finset.ssubset_iff_of_subset Finset.sdiff_subset]
    exact ⟨node, hnode, by simp⟩
  obtain ⟨r, hr, p⟩ := recurse_spec adj.get C hU fuel node adj v (fun _ => rfl) hnode
    (lt_of_lt_of_le hlt hfuel)
  refine ⟨r, hr, p.mem, ?_, ?_⟩
  · intro x hx hnv
    exact (hC.2 x).2 (reach_connected adj _ hnl node x (p.reach x hx hnv))
  · intro hnv
    apply Finset.card_lt_card
    have hsub : C \ r.2.keys.toFinset ⊆ C \ v.keys.toFinset := by
      intro x hx
      simp only [Finset.mem_sdiff, List.mem_toFinset] at hx ⊢
      exact ⟨hx.1, fun h => hx.2 (p.mono x h)⟩
    rw [Finset.ssubset_iff_of_subset hsub]
    refine ⟨node, ?_, ?_⟩
    · simp only [Finset.mem_sdiff, List.mem_toFinset]
      exact ⟨hnode, hnv⟩
    · simp only [Finset.mem_sdiff, List.mem_toFinset, not_and, not_not]
      exact fun _ => p.mem

/-- C17: zero is adjacent to every value greater than 1 but not to 1 or to 0: for
every input sequence of non-negative integers that contains 0 and a value greater
than 1, `largest_component_size` returns the number of distinct input values other
than 1. -/
theorem c17_zero_joins_values_above_one (nums : List Int) (x : Int)
    (hnn : ∀ y ∈ nums, 0 ≤ y) (h0 : (0 : Int) ∈ nums) (hx : x ∈ nums) (hx1 : 1 < x) :
    largest_component_size nums nums.length = some (((valueSet nums).erase 1).card : Int) ∧
    (∀ y ∈ nums, 1 < y →
      y ∈ (create_graph [] nums).get 0 ∧ (0 : Int) ∈ (create_graph [] nums).get y) ∧
    (1 : Int) ∉ (create_graph [] nums).get 0 ∧
    (0 : Int) ∉ (create_graph [] nums).get 0 := by
  have hz : ∀ y ∈ nums, 1 < y → GcdEdge nums 0 y := by
    intro y hy hy1
    refine gcdEdge_of_mem_ne nums 0 y h0 hy (by omega) ?_
    rw [Int.gcd_zero_left]
    omega
  have hlinked : linkedSet nums = (valueSet nums).erase 1 := by
    ext a
    rw [mem_linkedSet, Finset.mem_erase, valueSet, List.mem_toFinset]
    constructor
    · rintro ⟨b, hb⟩
      refine ⟨?_, gcdEdge_mem_left nums a b hb⟩
      rintro rfl
      obtain ⟨_, _, _, _, _, hg⟩ := hb
      rw [Int.one_gcd] at hg
      exact absurd hg (lt_irrefl 1)
    · rintro ⟨ha1, ha⟩
      by_cases ha0 : a = 0
      · exact ⟨x, ha0 ▸ hz x hx hx1⟩
      · have := hnn a ha
        exact ⟨0, gcdEdge_symm nums 0 a (hz a ha (by omega))⟩
  have hzero : (0 : Int) ∈ linkedSet nums := (mem_linkedSet nums 0).2 ⟨x, hz x hx hx1⟩
  have hto : ∀ a ∈ linkedSet nums, Joined (linkedSet nums) (GcdEdge nums) 0 a ∨ a = 0 := by
    intro a ha
    by_cases ha0 : a = 0
    · exact Or.inr ha0
    · left
      have hmem : a ∈ nums := List.mem_toFinset.1 (linkedSet_subset nums ha)
      have hne1 : a ≠ 1 := by
        rw [hlinked] at ha
        exact (Finset.mem_erase.1 ha).1
      have := hnn a hmem
      exact ⟨hzero, ha, Or.inl (hz a hmem (by omega))⟩
  have hconn : ∀ a ∈ linkedSet nums, ∀ b ∈ linkedSet nums,
      Connected (linkedSet nums) (GcdEdge nums) a b := by
    intro a ha b hb
    have h1 : Connected (linkedSet nums) (GcdEdge nums) a 0 := by
      rcases hto a ha with h | h
      · exact Relation.ReflTransGen.single ⟨h.2.1, h.1, h.2.2.symm⟩
      · rw [h]; exact Relation.ReflTransGen.refl
    have h2 : Connected (linkedSet nums) (GcdEdge nums) 0 b := by
      rcases hto b hb with h | h
      · exact Relation.ReflTransGen.single h
      · rw [h]; exact Relation.ReflTransGen.refl
    exact h1.trans h2
  obtain ⟨n, hn, hl⟩ := largest_component_size_linked nums
  refine ⟨?_, ?_, ?_, ?_⟩
  · rw [hn, isLargest_of_all_connected _ _ n hl hconn, hlinked]
  · intro y hy hy1
    exact ⟨(edge_create_graph nums 0 y).2 (hz y hy hy1),
      (edge_create_graph nums y 0).2 (gcdEdge_symm nums 0 y (hz y hy hy1))⟩
  · intro h
    obtain ⟨_, _, _, _, _, hg⟩ := (edge_create_graph nums 0 1).1 h
    rw [Int.gcd_zero_left] at hg
    exact absurd hg (by decide)
  · intro h
    obtain ⟨_, _, _, _, _, hg⟩ := (edge_create_graph nums 0 0).1 h
    rw [Int.gcd_zero_left] at hg
    exact absurd hg (by decide)

/-- C17 (witness): `[0, 1, 2, 3, 0]`; the values other than 1 are 0, 2 and 3. -/
theorem c17_zero_joins_values_above_one_witness :
    largest_component_size [0, 1, 2, 3, 0] 5 = some 3 ∧
    (largest_component_size [0, 1, 2, 3, 0] ([0, 1, 2, 3, 0] : List Int).length =
        some (((valueSet [0, 1, 2, 3, 0]).erase 1).card : Int) ∧
      (∀ y ∈ ([0, 1, 2, 3, 0] : List Int), 1 < y →
        y ∈ (create_graph [] [0, 1, 2, 3, 0]).get 0 ∧
          (0 : Int) ∈ (create_graph [] [0, 1, 2, 3, 0]).get y) ∧
      (1 : Int) ∉ (create_graph [] [0, 1, 2, 3, 0]).get 0 ∧
      (0 : Int) ∉ (create_graph [] [0, 1, 2, 3, 0]).get 0) :=
  ⟨by decide, c17_zero_joins_values_above_one [0, 1, 2, 3, 0] 2 (by decide) (by decide)
    (by decide) (by decide)⟩

/-- C18: for every input sequence the map built by `create_graph` is closed, so each
subscript `adj_list[node]` in `recurse` finds its key: `recurse` from any key returns
the map unchanged, the map is the same at every iteration of the loop of `dfs`, and
the map after `dfs` is the map before it. -/
theorem c18_create_graph_closed_no_insertion (nums : List Int) :
    (create_graph [] nums).Closed ∧
    (∀ node ∈ (create_graph [] nums).keys,
      UMap.subscript (create_graph [] nums) node id = create_graph [] nums ∧
      ∀ v : Visited, ∃ r, recurse (callBudget (create_graph [] nums)) node
        (create_graph [] nums) v = some r ∧ r.1 = create_graph [] nums) ∧
    (∀ done rest, (create_graph [] nums).keys = done ++ rest →
      ∃ st, done.foldlM (dfsStep (callBudget (create_graph [] nums)))
          (dfsInit (create_graph [] nums)) = some st ∧
        st.adj_list = create_graph [] nums) ∧
    (∃ st, dfsLoop (callBudget (create_graph [] nums)) (create_graph [] nums) = some st ∧
      st.adj_list = create_graph [] nums) := by
  have hs := symmetric_create_graph nums
  have hc := closed_create_graph nums
  have hcl : ∀ a ∈ (create_graph [] nums).keys, ∀ b ∈ (create_graph [] nums).get a,
      b ∈ (create_graph [] nums).keys := fun a _ b h => hc a b h
  refine ⟨hc, ?_, ?_, ?_⟩
  · intro node hnode
    refine ⟨UMap.subscript_id_of_mem _ node hnode, fun v => ?_⟩
    obtain ⟨r, hr, p⟩ := recurse_total (create_graph [] nums) node (create_graph [] nums) v
      _ (fun _ => rfl) (le_refl _)
    exact ⟨r, hr, p.same hnode hcl⟩
  · intro done rest hsplit
    have inv0 : DfsInv (create_graph [] nums) [] (dfsInit (create_graph [] nums)) :=
      ⟨rfl, List.nodup_nil, rfl, by simp [dfsInit, UMap.keys], 0, rfl, by simp,
        Or.inl ⟨rfl, rfl⟩⟩
    obtain ⟨st, hst, inv⟩ := dfs_fold_spec (create_graph [] nums) hs hcl _
      (keys_length_lt_callBudget _) done [] _
      (fun k hk => by rw [hsplit]; exact List.mem_append_left _ hk) inv0
    exact ⟨st, hst, inv.adj_eq⟩
  · obtain ⟨st, _, hst, heq, _⟩ := dfsLoop_spec (create_graph [] nums) hs hc _
      (keys_length_lt_callBudget _)
    exact ⟨st, hst, heq⟩

/-- C19: for every input sequence, `largest_component_size` returns 0 if and only if
no two positions `i < j` hold values with gcd > 1; a value that shares no factor with
the value at any other position is not a key of the adjacency map, and the result
counts keys only. -/
theorem c19_zero_iff_no_linked_pair (nums : List Int) :
    (largest_component_size nums nums.length = some 0 ↔
      ¬ ∃ (i j : Nat) (a b : Int),
        i < j ∧ nums[i]? = some a ∧ nums[j]? = some b ∧ 1 < Int.gcd a b) ∧
    (∀ a, (∀ b, ¬ GcdEdge nums a b) → a ∉ (create_graph [] nums).keys) ∧
    (∃ n : Nat, largest_component_size nums nums.length = some (n : Int) ∧
      n ≤ (create_graph [] nums).keys.toFinset.card) := by
  obtain ⟨n, hn, hl⟩ := largest_component_size_linked nums
  refine ⟨?_, ?_, ?_⟩
  · constructor
    · rintro h0 ⟨i, j, a, b, hij, hi, hj, hg⟩
      have hab := gcdEdge_of_lt nums i j a b hij hi hj hg
      have ha : a ∈ linkedSet nums := (mem_linkedSet nums a).2 ⟨b, hab⟩
      rw [hn] at h0
      have hn0 : n = 0 := by
        have := Option.some.inj h0
        exact_mod_cast this
      rcases hl.2 with ⟨he, _⟩ | ⟨a', C, hC, hCn⟩
      · rw [he] at ha
        simp at ha
      · have hpos : 0 < C.card := Finset.card_pos.2 ⟨a', mem_of_isComponentOf _ _ _ _ hC⟩
        omega
    · intro h
      rw [largest_component_size_eq, create_graph_eq_nil nums]
      · rfl
      · rintro a b ⟨i, j, hij, hi, hj, hg⟩
        rcases Nat.lt_or_gt_of_ne hij with hlt | hgt
        · exact h ⟨i, j, a, b, hlt, hi, hj, hg⟩
        · exact h ⟨j, i, b, a, hgt, hj, hi, by rwa [Int.gcd_comm]⟩
  · intro a ha hk
    obtain ⟨b, hb⟩ := (keys_create_graph nums a).1 hk
    exact ha b hb
  · refine ⟨n, hn, ?_⟩
    rw [keys_toFinset_create_graph]
    rcases hl.2 with ⟨_, h0⟩ | ⟨a, C, hC, hCn⟩
    · rw [h0]; exact Nat.zero_le _
    · rw [← hCn]
      apply Finset.card_le_card
      intro x hx
      exact connected_mem _ _ a x hC.1 ((hC.2 x).1 hx)

/-- C20: the result does not depend on the order of the input: for every input
sequence and every permutation of it, `largest_component_size` returns the same
value. -/
theorem c20_input_order_independent (nums nums' : List Int) (h : nums'.Perm nums) :
    largest_component_size nums' nums'.length = largest_component_size nums nums.length :=
  largest_component_size_congr nums nums' (gcdEdge_perm nums nums' h)

/-- C20 (witness): `[6, 3, 4, 2]` is a permutation of `[2, 3, 4, 6]`; both give 4. -/
theorem c20_input_order_independent_witness :
    largest_component_size [2, 3, 4, 6] 4 = some 4 ∧
    largest_component_size [6, 3, 4, 2] ([6, 3, 4, 2] : List Int).length =
      largest_component_size [2, 3, 4, 6] ([2, 3, 4, 6] : List Int).length :=
  ⟨by decide, c20_input_order_independent [2, 3, 4, 6] [6, 3, 4, 2] (by decide)⟩

end BruteDfs
